import Mathlib

/-!
# Verification of the subxt metadata-driven codec core

A shallow embedding, in Lean 4, of the metadata-driven codec and
compatibility-validation engine described by the repository's design
document.  The repository's crate root (`src/subxt/src/lib.rs`) only
declares the module tree and re-exports; the codec engine, compatibility
hasher and operation resolver themselves are not part of the sources
provided, so every definition below that embeds one of those components is
modelled from the specification text and marked as such in its doc
comment.  The feature gate at the bottom of `lib.rs` is embedded from the
source directly.

Bytes are modelled as `List Nat` with each entry intended to be `< 256`;
machine integers are `Nat` with explicit bounds where overflow matters.
-/

namespace Subxt

/-- Modelled from the spec (§7 error taxonomy): the local, synchronous error
kinds of the codec/validation core. -/
inductive Err where
  | unknownTypeId
  | shapeMismatch
  | unknownVariant
  | invalidDiscriminant
  | unexpectedEof
  | invalidCompactEncoding
  | entryNotFound
  | incompatibleMetadata
  | depthLimit
deriving DecidableEq, Repr

/-- Modelled from the spec (§3 `Primitive(kind)`): the fixed set of
primitive kinds — boolean, fixed-width unsigned integers, and a textual
(byte-string) kind. -/
inductive PrimKind where
  | bool
  | u8
  | u16
  | u32
  | u64
  | u128
  | str
deriving DecidableEq, Repr

/-- Byte width of a fixed-width unsigned-integer primitive kind
(0 for the kinds that are not fixed-width integers). -/
def PrimKind.width : PrimKind → Nat
  | .u8 => 1
  | .u16 => 2
  | .u32 => 4
  | .u64 => 8
  | .u128 => 16
  | _ => 0

/-- Whether a primitive kind is an unsigned integer kind (the only kinds a
`Compact` wrapper may contain). -/
def PrimKind.isUInt : PrimKind → Bool
  | .u8 | .u16 | .u32 | .u64 | .u128 => true
  | _ => false

/-- Modelled from the spec (§3 `Composite` fields): an optionally named
field referencing a registry type id, with documentation strings. -/
structure Field where
  fname : Option String
  ty : Nat
  docs : List String
deriving DecidableEq, Repr

/-- Modelled from the spec (§3 `Variant` arms): a named arm with a
discriminant byte and an ordered field list, with documentation strings. -/
structure Arm where
  aname : String
  disc : Nat
  afields : List Field
  docs : List String
deriving DecidableEq, Repr

/-- Modelled from the spec (§3 Type Descriptor): the tagged variant of type
shapes stored in the Type Registry.  The two `bitSequence` order tags are
carried opaquely (the spec does not define per-order packing; packing below
is least-significant-bit-first within each byte). -/
inductive TypeDef where
  | primitive (k : PrimKind)
  | compact (inner : Nat)
  | sequence (inner : Nat)
  | array (len : Nat) (inner : Nat)
  | tuple (ids : List Nat)
  | composite (cfields : List Field)
  | variant (arms : List Arm)
  | bitSequence (storeOrder : Nat) (bitOrder : Nat)
deriving DecidableEq, Repr

/-- Modelled from the spec (§3, §4.1 Type Registry): an indexed, immutable
collection of type descriptors, looked up by numeric id. -/
structure Registry where
  types : List (Nat × TypeDef)
deriving DecidableEq, Repr

/-- Modelled from the spec (§4.1): `resolve(id) -> Type Descriptor`,
absent ids yield `none` (`UnknownTypeId` at use sites). -/
def Registry.resolve (r : Registry) (id : Nat) : Option TypeDef :=
  (r.types.find? (fun p => p.1 == id)).map (fun p => p.2)

/-- Modelled from the spec (§3 Value Tree): the generic in-memory value
representation, registry-independent; `uint` carries an unbounded natural
covering both fixed-width integers and big compact values. -/
inductive Value where
  | bool (b : Bool)
  | uint (n : Nat)
  | str (bytes : List Nat)
  | seq (xs : List Value)
  | tuple (xs : List Value)
  | composite (vfields : List (Option String × Value))
  | variant (armName : String) (vfields : List (Option String × Value))
  | bits (bs : List Bool)
deriving Repr

/-! ## Little-endian byte strings -/

/-- Fixed-width little-endian bytes of `n` (width `w` bytes, truncating at
`2 ^ (8 * w)`). -/
def leFixed : Nat → Nat → List Nat
  | 0, _ => []
  | w + 1, n => n % 256 :: leFixed w (n / 256)

/-- Read back a little-endian byte string as a natural number. -/
def fromLe : List Nat → Nat
  | [] => 0
  | b :: rest => b % 256 + 256 * fromLe rest

/-- Minimal little-endian byte string of `n` (no trailing zero byte), with
a structural fuel argument; `leBytes` below instantiates the fuel. -/
def leBytesF : Nat → Nat → List Nat
  | 0, _ => []
  | f + 1, n => if n = 0 then [] else n % 256 :: leBytesF f (n / 256)

/-- Minimal little-endian byte string of `n`; fuel `n + 1` always
suffices since the argument shrinks by a factor of 256 each step. -/
def leBytes (n : Nat) : List Nat :=
  leBytesF (n + 1) n

/-- Number of bytes in the minimal little-endian representation of `n`. -/
def byteCount (n : Nat) : Nat :=
  (leBytes n).length

theorem leFixed_length (w n : Nat) : (leFixed w n).length = w := by
  induction w generalizing n with
  | zero => rfl
  | succ w ih => simp [leFixed, ih]

theorem fromLe_leFixed (w n : Nat) (h : n < 256 ^ w) :
    fromLe (leFixed w n) = n := by
  induction w generalizing n with
  | zero => simp [pow_zero] at h; simp [leFixed, fromLe, h]
  | succ w ih =>
    have hdiv : n / 256 < 256 ^ w := by
      rw [Nat.div_lt_iff_lt_mul (by norm_num)]
      calc n < 256 ^ (w + 1) := h
        _ = 256 ^ w * 256 := by ring
    simp [leFixed, fromLe, Nat.mod_mod_of_dvd, ih _ hdiv]
    omega

theorem fromLe_leBytesF (f n : Nat) (h : n < 256 ^ f) :
    fromLe (leBytesF f n) = n := by
  induction f generalizing n with
  | zero => simp [pow_zero] at h; simp [leBytesF, fromLe, h]
  | succ f ih =>
    by_cases h0 : n = 0
    · simp [leBytesF, fromLe, h0]
    · have hdiv : n / 256 < 256 ^ f := by
        rw [Nat.div_lt_iff_lt_mul (by norm_num)]
        calc n < 256 ^ (f + 1) := h
          _ = 256 ^ f * 256 := by ring
      simp [leBytesF, fromLe, h0, Nat.mod_mod_of_dvd, ih _ hdiv]
      omega

theorem lt_pow_self_add_one (n : Nat) : n < 256 ^ (n + 1) := by
  calc n < n + 1 := Nat.lt_succ_self n
    _ ≤ 256 ^ (n + 1) := by
        calc n + 1 ≤ 2 ^ (n + 1) := Nat.le_of_lt (Nat.lt_two_pow (n + 1))
          _ ≤ 256 ^ (n + 1) := Nat.pow_le_pow_left (by norm_num) _

theorem fromLe_leBytes (n : Nat) : fromLe (leBytes n) = n :=
  fromLe_leBytesF _ _ (lt_pow_self_add_one n)

/-! ## Compact (variable-length) integer encoding -/

/-- Modelled from the spec (§4.2 `Compact`): the mode selected for value
`n` — 0 (single byte), 1 (two bytes), 2 (four bytes) or 3 (length-prefixed
big-number mode), by the threshold ladder at `2^6`, `2^14`, `2^30`. -/
def compactMode (n : Nat) : Nat :=
  if n < 2 ^ 6 then 0
  else if n < 2 ^ 14 then 1
  else if n < 2 ^ 30 then 2
  else 3

/-- Modelled from the spec (§4.2 `Compact`): variable-length encoding of an
unsigned integer.  Mode bits live in the two least-significant bits of the
first byte; modes 0/1/2 shift the value left by two and tag it; mode 3
stores `byteCount n - 4` in the header and the little-endian bytes after. -/
def compactEncode (n : Nat) : List Nat :=
  if n < 2 ^ 6 then [(n * 4) % 256]
  else if n < 2 ^ 14 then leFixed 2 (n * 4 + 1)
  else if n < 2 ^ 30 then leFixed 4 (n * 4 + 2)
  else ((byteCount n - 4) * 4 + 3) % 256 :: leBytes n

/-- Modelled from the spec (§4.2 decode of `Compact`): reads one compact
integer, returning the value and the remaining bytes; fails with
`UnexpectedEof` on truncation. -/
def compactDecode : List Nat → Except Err (Nat × List Nat)
  | [] => .error .unexpectedEof
  | b :: rest =>
    if b % 4 = 0 then .ok (b % 256 / 4, rest)
    else if b % 4 = 1 then
      match rest with
      | [] => .error .unexpectedEof
      | b1 :: rest1 => .ok (fromLe [b, b1] / 4, rest1)
    else if b % 4 = 2 then
      match rest with
      | b1 :: b2 :: b3 :: rest3 => .ok (fromLe [b, b1, b2, b3] / 4, rest3)
      | _ => .error .unexpectedEof
    else
      if b % 256 / 4 + 4 ≤ rest.length then
        .ok (fromLe (rest.take (b % 256 / 4 + 4)), rest.drop (b % 256 / 4 + 4))
      else .error .unexpectedEof

theorem leBytesF_length_le (f k n : Nat) (hk : n < 256 ^ k) (hf : k ≤ f) :
    (leBytesF f n).length ≤ k := by
  induction f generalizing k n with
  | zero => simp [leBytesF]
  | succ f ih =>
    by_cases h0 : n = 0
    · simp [leBytesF, h0]
    · match k with
      | 0 => simp [pow_zero] at hk; omega
      | k + 1 =>
        have hdiv : n / 256 < 256 ^ k := by
          rw [Nat.div_lt_iff_lt_mul (by norm_num)]
          calc n < 256 ^ (k + 1) := hk
            _ = 256 ^ k * 256 := by ring
        simp only [leBytesF, h0, if_false, List.length_cons]
        have := ih (k := k) (n := n / 256) hdiv (by omega)
        omega

theorem le_leBytesF_length (f k n : Nat) (hk : 256 ^ k ≤ n) (hf : k < f) :
    k + 1 ≤ (leBytesF f n).length := by
  induction f generalizing k n with
  | zero => omega
  | succ f ih =>
    have h0 : n ≠ 0 := by
      have : 1 ≤ 256 ^ k := Nat.one_le_pow _ _ (by norm_num)
      omega
    simp only [leBytesF, h0, if_false, List.length_cons]
    match k with
    | 0 => omega
    | k + 1 =>
      have hdiv : 256 ^ k ≤ n / 256 := by
        rw [Nat.le_div_iff_mul_le (by norm_num)]
        calc 256 ^ k * 256 = 256 ^ (k + 1) := by ring
          _ ≤ n := hk
      have := ih (k := k) (n := n / 256) hdiv (by omega)
      omega

theorem byteCount_le (k n : Nat) (hk : n < 256 ^ k) : byteCount n ≤ k := by
  rcases le_or_lt k (n + 1) with h | h
  · exact leBytesF_length_le _ _ _ hk h
  · have h1 : byteCount n ≤ n + 1 :=
      leBytesF_length_le _ _ _ (lt_pow_self_add_one n) le_rfl
    omega

theorem le_byteCount (k n : Nat) (hk : 256 ^ k ≤ n) : k + 1 ≤ byteCount n := by
  refine le_leBytesF_length _ _ _ hk ?_
  have : k < 256 ^ k := Nat.lt_pow_self (by norm_num) k
  omega

theorem leBytes_length_eq_byteCount (n : Nat) : (leBytes n).length = byteCount n := rfl

/-- Round trip of the compact integer encoding, with arbitrary trailing
bytes; values are bounded by `2 ^ 128` (the largest integer width the
registry's primitive kinds admit). -/
theorem compactDecode_compactEncode (n : Nat) (rest : List Nat)
    (h : n < 2 ^ 128) :
    compactDecode (compactEncode n ++ rest) = .ok (n, rest) := by
  by_cases h6 : n < 2 ^ 6
  · simp only [compactEncode, if_pos h6, List.cons_append, List.nil_append,
      compactDecode]
    rw [if_pos (show n * 4 % 256 % 4 = 0 by omega)]
    simp only [Except.ok.injEq, Prod.mk.injEq, and_true]
    omega
  · by_cases h14 : n < 2 ^ 14
    · simp only [compactEncode, if_neg h6, if_pos h14, leFixed,
        List.cons_append, List.nil_append, compactDecode]
      rw [if_neg (show ¬(n * 4 + 1) % 256 % 4 = 0 by omega),
        if_pos (show (n * 4 + 1) % 256 % 4 = 1 by omega)]
      simp only [fromLe, Except.ok.injEq, Prod.mk.injEq, and_true]
      omega
    · by_cases h30 : n < 2 ^ 30
      · simp only [compactEncode, if_neg h6, if_neg h14, if_pos h30, leFixed,
          List.cons_append, List.nil_append, compactDecode]
        rw [if_neg (show ¬(n * 4 + 2) % 256 % 4 = 0 by omega),
          if_neg (show ¬(n * 4 + 2) % 256 % 4 = 1 by omega),
          if_pos (show (n * 4 + 2) % 256 % 4 = 2 by omega)]
        simp only [fromLe, Except.ok.injEq, Prod.mk.injEq, and_true]
        omega
      · have hbc4 : 4 ≤ byteCount n := by
          have : (256 : Nat) ^ 3 ≤ n := by norm_num at h30 ⊢; omega
          exact le_byteCount 3 n this
        have hbc16 : byteCount n ≤ 16 := byteCount_le 16 n (by norm_num at h ⊢; omega)
        have hhead : (byteCount n - 4) * 4 + 3 < 256 := by omega
        simp only [compactEncode, if_neg h6, if_neg h14, if_neg h30,
          List.cons_append, compactDecode]
        rw [if_neg (show ¬((byteCount n - 4) * 4 + 3) % 256 % 4 = 0 by omega),
          if_neg (show ¬((byteCount n - 4) * 4 + 3) % 256 % 4 = 1 by omega),
          if_neg (show ¬((byteCount n - 4) * 4 + 3) % 256 % 4 = 2 by omega)]
        have hlen2 : ((byteCount n - 4) * 4 + 3) % 256 % 256 / 4 + 4 = byteCount n := by
          omega
        rw [hlen2]
        have hleb : (leBytes n).length = byteCount n := rfl
        rw [if_pos (by simp [List.length_append, hleb]),
          List.take_left' hleb, List.drop_left' hleb, fromLe_leBytes]

/-- C2: compact encoding selects its mode by the exact threshold ladder —
values under `2^6` encode in one byte (mode 0), values in `[2^6, 2^14)` in
two bytes (mode 1), values in `[2^14, 2^30)` in four bytes (mode 2), and
values at or above `2^30` in the length-prefixed big-number mode (mode 3,
one header byte plus the minimal little-endian bytes of the value); in
every branch the first byte's low two bits carry the selected mode. -/
theorem c2_compact_mode_ladder (n : Nat) :
    ((compactEncode n).headI % 4 = compactMode n) ∧
    (n < 2 ^ 6 → compactMode n = 0 ∧ (compactEncode n).length = 1) ∧
    (2 ^ 6 ≤ n → n < 2 ^ 14 → compactMode n = 1 ∧ (compactEncode n).length = 2) ∧
    (2 ^ 14 ≤ n → n < 2 ^ 30 → compactMode n = 2 ∧ (compactEncode n).length = 4) ∧
    (2 ^ 30 ≤ n → compactMode n = 3 ∧ (compactEncode n).length = byteCount n + 1) := by
  by_cases h6 : n < 2 ^ 6
  · refine ⟨?_, fun _ => ⟨?_, ?_⟩, fun h _ => absurd h6 (by omega), fun h _ => ?_, fun h => ?_⟩
    all_goals simp only [compactEncode, compactMode, if_pos h6, List.headI, List.length] <;> omega
  · by_cases h14 : n < 2 ^ 14
    · refine ⟨?_, fun h => absurd h h6, fun _ _ => ⟨?_, ?_⟩, fun h _ => absurd h14 (by omega), fun h => ?_⟩
      all_goals
        simp only [compactEncode, compactMode, if_neg h6, if_pos h14, leFixed,
          List.headI, List.length] <;> omega
    · by_cases h30 : n < 2 ^ 30
      · refine ⟨?_, fun h => absurd h h6, fun _ h => absurd h h14, fun _ _ => ⟨?_, ?_⟩, fun h => ?_⟩
        all_goals
          simp only [compactEncode, compactMode, if_neg h6, if_neg h14,
            if_pos h30, leFixed, List.headI, List.length] <;> omega
      · refine ⟨?_, fun h => absurd h h6, fun _ h => absurd h h14, fun _ h => absurd h h30, fun _ => ⟨?_, ?_⟩⟩
        all_goals
          simp only [compactEncode, compactMode, if_neg h6, if_neg h14,
            if_neg h30, List.headI, List.length_cons,
            leBytes_length_eq_byteCount] <;> omega

/-! ## Bit sequences -/

/-- Value of a byte assembled from up to eight booleans,
least-significant bit first. -/
def bitsToByte : List Bool → Nat
  | [] => 0
  | b :: rest => (if b then 1 else 0) + 2 * bitsToByte rest

/-- Pack booleans into bytes, eight per byte, least-significant bit first;
structural fuel (one unit per produced byte). -/
def packBitsF : Nat → List Bool → List Nat
  | 0, _ => []
  | f + 1, bs =>
    if bs.isEmpty then []
    else bitsToByte (bs.take 8) :: packBitsF f (bs.drop 8)

/-- Modelled from the spec (§4.2 `BitSequence`): pack booleans into bytes. -/
def packBits (bs : List Bool) : List Nat :=
  packBitsF bs.length bs

/-- The `k` least-significant bits of a natural number, in order. -/
def bitsOfNat : Nat → Nat → List Bool
  | 0, _ => []
  | k + 1, b => (b % 2 == 1) :: bitsOfNat k (b / 2)

/-- The eight bits of a byte, least-significant first. -/
def byteToBits (b : Nat) : List Bool :=
  bitsOfNat 8 b

/-- Modelled from the spec (§4.2 decode of `BitSequence`): unpack `count`
booleans from a packed byte string. -/
def unpackBits (count : Nat) (bytes : List Nat) : List Bool :=
  ((bytes.map byteToBits).flatten).take count

/-! ## Minimal encoded size of a shape

Used by the decoder to bound-check a node-supplied element count against
the remaining input before materialising any elements (spec §4.2: decoding
never allocates based on a supplied length without bound-checking it). -/

/-- Work items for the minimal-size computation. -/
inductive SizeJob where
  | one (path : List Nat) (id : Nat)
  | list (path : List Nat) (ids : List Nat)
  | arms (path : List Nat) (arms : List Arm)

/-- Modelled from the spec (§4.2, §9): a lower bound, in bytes, on the
encoding of any value of a given shape; ids already on the expansion path
(cycles) and exhausted fuel contribute the trivial bound 0. -/
def minSizeF : Nat → Registry → SizeJob → Nat
  | 0, _, _ => 0
  | f + 1, r, .one path id =>
    if id ∈ path then 0
    else
      match r.resolve id with
      | none => 0
      | some (.primitive .bool) => 1
      | some (.primitive .str) => 1
      | some (.primitive k) => k.width
      | some (.compact _) => 1
      | some (.sequence _) => 1
      | some (.array len inner) => len * minSizeF f r (.one (id :: path) inner)
      | some (.tuple ids) => minSizeF f r (.list (id :: path) ids)
      | some (.composite fs) =>
          minSizeF f r (.list (id :: path) (fs.map (fun fd => fd.ty)))
      | some (.variant arms) => 1 + minSizeF f r (.arms (id :: path) arms)
      | some (.bitSequence _ _) => 1
  | f + 1, r, .list path ids =>
    match ids with
    | [] => 0
    | id :: rest => minSizeF f r (.one path id) + minSizeF f r (.list path rest)
  | f + 1, r, .arms path as =>
    match as with
    | [] => 0
    | [a] => minSizeF f r (.list path (a.afields.map (fun fd => fd.ty)))
    | a :: rest =>
        min (minSizeF f r (.list path (a.afields.map (fun fd => fd.ty))))
          (minSizeF f r (.arms path rest))

/-- Rough traversal weight of one descriptor, for fuel computation. -/
def defWeight : TypeDef → Nat
  | .tuple ids => ids.length + 2
  | .composite fs => fs.length + 2
  | .variant arms => (arms.map (fun a => a.afields.length + 2)).sum + 2
  | _ => 2

/-- Fuel ample enough for the minimal-size traversal of a registry. -/
def regFuel (r : Registry) : Nat :=
  (r.types.length + 1) * ((r.types.map (fun p => defWeight p.2)).sum + 1) + 1

/-- Minimal encoded byte size of shape `id` in registry `r`. -/
def minSize (r : Registry) (id : Nat) : Nat :=
  minSizeF (regFuel r) r (.one [] id)

/-! ## Codec Engine: encode -/

/-- Work items for the encoder: a single value against one type id, the
elements of a homogeneous sequence/array, the components of a tuple, or
the named fields of a composite/variant arm. -/
inductive EncJob where
  | one (id : Nat) (v : Value)
  | seqElems (id : Nat) (vs : List Value)
  | tupleElems (ids : List Nat) (vs : List Value)
  | fieldElems (fs : List Field) (vfs : List (Option String × Value))

/-- Modelled from the spec (§4.2 `encode`): dispatch on the resolved
descriptor of the type id; the value must structurally match (including
declared field names) or the call fails with `ShapeMismatch`; recursion
depth is bounded defensively by fuel (spec §3 invariant).  Lengths carried
in compact prefixes are bounded by `2 ^ 32` as in the source wire format. -/
def encodeJob : Nat → Registry → EncJob → Except Err (List Nat)
  | 0, _, _ => .error .depthLimit
  | f + 1, r, .one id v =>
    match r.resolve id with
    | none => .error .unknownTypeId
    | some d =>
      match d, v with
      | .primitive .bool, .bool b => .ok [if b then 1 else 0]
      | .primitive .str, .str bytes =>
          if bytes.length < 2 ^ 32 ∧ ∀ b ∈ bytes, b < 256 then
            .ok (compactEncode bytes.length ++ bytes)
          else .error .shapeMismatch
      | .primitive k, .uint n =>
          if k.isUInt ∧ n < 2 ^ (8 * k.width) then .ok (leFixed k.width n)
          else .error .shapeMismatch
      | .compact inner, .uint n =>
          (match r.resolve inner with
          | some (.primitive k) =>
              if k.isUInt ∧ n < 2 ^ (8 * k.width) then .ok (compactEncode n)
              else .error .shapeMismatch
          | _ => .error .shapeMismatch)
      | .sequence inner, .seq xs =>
          if xs.length < 2 ^ 32 then
            match encodeJob f r (.seqElems inner xs) with
            | .error e => .error e
            | .ok body => .ok (compactEncode xs.length ++ body)
          else .error .shapeMismatch
      | .array len inner, .seq xs =>
          if xs.length = len then encodeJob f r (.seqElems inner xs)
          else .error .shapeMismatch
      | .tuple ids, .tuple xs => encodeJob f r (.tupleElems ids xs)
      | .composite cfs, .composite vfs => encodeJob f r (.fieldElems cfs vfs)
      | .variant arms, .variant an vfs =>
          (match arms.find? (fun a => a.aname == an) with
          | none => .error .unknownVariant
          | some a =>
              if a.disc < 256 then
                match encodeJob f r (.fieldElems a.afields vfs) with
                | .error e => .error e
                | .ok body => .ok (a.disc :: body)
              else .error .shapeMismatch)
      | .bitSequence _ _, .bits bs =>
          if bs.length < 2 ^ 32 then
            .ok (compactEncode bs.length ++ packBits bs)
          else .error .shapeMismatch
      | _, _ => .error .shapeMismatch
  | f + 1, r, .seqElems id vs =>
    match vs with
    | [] => .ok []
    | v :: rest =>
      match encodeJob f r (.one id v) with
      | .error e => .error e
      | .ok b =>
        match encodeJob f r (.seqElems id rest) with
        | .error e => .error e
        | .ok bsr => .ok (b ++ bsr)
  | f + 1, r, .tupleElems ids vs =>
    match ids, vs with
    | [], [] => .ok []
    | id :: ids, v :: vs =>
      (match encodeJob f r (.one id v) with
      | .error e => .error e
      | .ok b =>
        match encodeJob f r (.tupleElems ids vs) with
        | .error e => .error e
        | .ok bsr => .ok (b ++ bsr))
    | _, _ => .error .shapeMismatch
  | f + 1, r, .fieldElems fs vfs =>
    match fs, vfs with
    | [], [] => .ok []
    | fd :: fs, (nm, v) :: vfs =>
        if nm = fd.fname then
          match encodeJob f r (.one fd.ty v) with
          | .error e => .error e
          | .ok b =>
            match encodeJob f r (.fieldElems fs vfs) with
            | .error e => .error e
            | .ok bsr => .ok (b ++ bsr)
        else .error .shapeMismatch
    | _, _ => .error .shapeMismatch

/-! ## Codec Engine: decode -/

/-- Work items for the decoder, mirroring `EncJob`. -/
inductive DecJob where
  | one (id : Nat)
  | seqElems (id : Nat) (count : Nat)
  | tupleElems (ids : List Nat)
  | fieldElems (fs : List Field)

/-- Results of a decoder work item. -/
inductive DecOut where
  | one (v : Value)
  | many (vs : List Value)
  | fields (vfs : List (Option String × Value))

/-- Modelled from the spec (§4.2 `decode`): mirror of encode; consumes
exactly the bytes the shape requires and returns the remainder; fails with
`UnexpectedEof` on truncation, `InvalidDiscriminant` on an unknown variant
tag, `InvalidCompactEncoding` on an out-of-range compact value; a
node-supplied sequence count is bound-checked against the remaining bytes
(scaled by the element shape's minimal size) before any element is
decoded. -/
def decodeJob : Nat → Registry → DecJob → List Nat → Except Err (DecOut × List Nat)
  | 0, _, _, _ => .error .depthLimit
  | f + 1, r, .one id, bytes =>
    match r.resolve id with
    | none => .error .unknownTypeId
    | some (.primitive .bool) =>
      (match bytes with
      | [] => .error .unexpectedEof
      | b :: rest =>
          if b = 1 then .ok (.one (.bool true), rest)
          else if b = 0 then .ok (.one (.bool false), rest)
          else .error .shapeMismatch)
    | some (.primitive .str) =>
      (match compactDecode bytes with
      | .error e => .error e
      | .ok (len, rest) =>
          if len ≤ rest.length then
            .ok (.one (.str (rest.take len)), rest.drop len)
          else .error .unexpectedEof)
    | some (.primitive k) =>
        if k.isUInt then
          if k.width ≤ bytes.length then
            .ok (.one (.uint (fromLe (bytes.take k.width))), bytes.drop k.width)
          else .error .unexpectedEof
        else .error .shapeMismatch
    | some (.compact inner) =>
      (match r.resolve inner with
      | some (.primitive k) =>
          if k.isUInt then
            match compactDecode bytes with
            | .error e => .error e
            | .ok (n, rest) =>
                if n < 2 ^ (8 * k.width) then .ok (.one (.uint n), rest)
                else .error .invalidCompactEncoding
          else .error .shapeMismatch
      | _ => .error .shapeMismatch)
    | some (.sequence inner) =>
      (match compactDecode bytes with
      | .error e => .error e
      | .ok (count, rest) =>
          if count * minSize r inner ≤ rest.length then
            match decodeJob f r (.seqElems inner count) rest with
            | .error e => .error e
            | .ok (.many vs, rest2) => .ok (.one (.seq vs), rest2)
            | .ok _ => .error .shapeMismatch
          else .error .unexpectedEof)
    | some (.array len inner) =>
      (match decodeJob f r (.seqElems inner len) bytes with
      | .error e => .error e
      | .ok (.many vs, rest2) => .ok (.one (.seq vs), rest2)
      | .ok _ => .error .shapeMismatch)
    | some (.tuple ids) =>
      (match decodeJob f r (.tupleElems ids) bytes with
      | .error e => .error e
      | .ok (.many vs, rest2) => .ok (.one (.tuple vs), rest2)
      | .ok _ => .error .shapeMismatch)
    | some (.composite cfs) =>
      (match decodeJob f r (.fieldElems cfs) bytes with
      | .error e => .error e
      | .ok (.fields vfs, rest2) => .ok (.one (.composite vfs), rest2)
      | .ok _ => .error .shapeMismatch)
    | some (.variant arms) =>
      (match bytes with
      | [] => .error .unexpectedEof
      | b :: rest =>
        match arms.find? (fun a => a.disc == b) with
        | none => .error .invalidDiscriminant
        | some a =>
          match decodeJob f r (.fieldElems a.afields) rest with
          | .error e => .error e
          | .ok (.fields vfs, rest2) => .ok (.one (.variant a.aname vfs), rest2)
          | .ok _ => .error .shapeMismatch)
    | some (.bitSequence _ _) =>
      (match compactDecode bytes with
      | .error e => .error e
      | .ok (count, rest) =>
          if (count + 7) / 8 ≤ rest.length then
            .ok (.one (.bits (unpackBits count (rest.take ((count + 7) / 8)))),
              rest.drop ((count + 7) / 8))
          else .error .unexpectedEof)
  | f + 1, r, .seqElems id count, bytes =>
    match count with
    | 0 => .ok (.many [], bytes)
    | c + 1 =>
      match decodeJob f r (.one id) bytes with
      | .error e => .error e
      | .ok (.one v, rest1) =>
        (match decodeJob f r (.seqElems id c) rest1 with
        | .error e => .error e
        | .ok (.many vs, rest2) => .ok (.many (v :: vs), rest2)
        | .ok _ => .error .shapeMismatch)
      | .ok _ => .error .shapeMismatch
  | f + 1, r, .tupleElems ids, bytes =>
    match ids with
    | [] => .ok (.many [], bytes)
    | id :: ids =>
      match decodeJob f r (.one id) bytes with
      | .error e => .error e
      | .ok (.one v, rest1) =>
        (match decodeJob f r (.tupleElems ids) rest1 with
        | .error e => .error e
        | .ok (.many vs, rest2) => .ok (.many (v :: vs), rest2)
        | .ok _ => .error .shapeMismatch)
      | .ok _ => .error .shapeMismatch
  | f + 1, r, .fieldElems fs, bytes =>
    match fs with
    | [] => .ok (.fields [], bytes)
    | fd :: fs =>
      match decodeJob f r (.one fd.ty) bytes with
      | .error e => .error e
      | .ok (.one v, rest1) =>
        (match decodeJob f r (.fieldElems fs) rest1 with
        | .error e => .error e
        | .ok (.fields vfs, rest2) => .ok (.fields ((fd.fname, v) :: vfs), rest2)
        | .ok _ => .error .shapeMismatch)
      | .ok _ => .error .shapeMismatch

/-- Modelled from the spec (§4.2): well-formedness of a registry's variant
descriptors — discriminants within one variant are distinct (they are the
wire tags) and fit in a byte. -/
def Registry.WF (r : Registry) : Bool :=
  r.types.all fun p =>
    match p.2 with
    | .variant arms =>
        decide (arms.map (fun a => a.disc)).Nodup &&
          arms.all (fun a => a.disc < 256)
    | _ => true

/-- Unpack the well-formedness fact for a resolved variant descriptor. -/
theorem Registry.WF.variant_facts {r : Registry} (hwf : r.WF = true)
    {id : Nat} {arms : List Arm}
    (hres : r.resolve id = some (.variant arms)) :
    (arms.map (fun a => a.disc)).Nodup ∧ ∀ a ∈ arms, a.disc < 256 := by
  unfold Registry.resolve at hres
  match hfind : r.types.find? (fun p => p.1 == id) with
  | none => rw [hfind] at hres; simp at hres
  | some p =>
    rw [hfind] at hres
    simp only [Option.map_some'] at hres
    have hmem : p ∈ r.types := List.mem_of_find?_eq_some hfind
    have hall := (List.all_eq_true.mp hwf) p hmem
    injection hres with hres
    rw [hres] at hall
    simp only [Bool.and_eq_true, decide_eq_true_eq, List.all_eq_true,
      decide_eq_true_eq] at hall
    exact ⟨hall.1, hall.2⟩

/-! ## Helper lemmas for the round-trip proof -/

theorem compactEncode_length_pos (n : Nat) : 1 ≤ (compactEncode n).length := by
  unfold compactEncode
  split
  · simp
  · split
    · simp [leFixed_length]
    · split <;> simp [leFixed_length]

theorem pow256_eq (w : Nat) : (256 : Nat) ^ w = 2 ^ (8 * w) := by
  rw [show (256 : Nat) = 2 ^ 8 by norm_num, ← pow_mul]

theorem isUInt_width_le {k : PrimKind} (h : k.isUInt = true) : k.width ≤ 16 := by
  cases k <;> simp_all [PrimKind.isUInt, PrimKind.width]

theorem width_bound_le {k : PrimKind} (h : k.isUInt = true) :
    (2 : Nat) ^ (8 * k.width) ≤ 2 ^ 128 :=
  Nat.pow_le_pow_right (by norm_num) (by have := isUInt_width_le h; omega)

/-- With distinct discriminants, looking an arm up by its discriminant
finds exactly that arm. -/
theorem find?_by_disc {arms : List Arm} {a : Arm} (hmem : a ∈ arms)
    (hnd : (arms.map (fun x => x.disc)).Nodup) :
    arms.find? (fun x => x.disc == a.disc) = some a := by
  induction arms with
  | nil => cases hmem
  | cons a0 rest ih =>
    rcases List.mem_cons.mp hmem with h0 | hrest
    · subst h0
      simp [List.find?]
    · have hnd0 := (List.nodup_cons.mp hnd).1
      have hne : a0.disc ≠ a.disc := by
        intro he
        exact hnd0 (by simpa [he] using List.mem_map_of_mem (fun x => x.disc) hrest)
      simp only [List.find?]
      rw [show (a0.disc == a.disc) = false by simp [hne]]
      exact ih hrest (List.nodup_cons.mp hnd).2

/-- The arm found by name is a member of the arm list, satisfies the name
test, and its fields drive the encoding. -/
theorem find?_name_mem {arms : List Arm} {an : String} {a : Arm}
    (h : arms.find? (fun x => x.aname == an) = some a) :
    a ∈ arms ∧ a.aname = an :=
  ⟨List.mem_of_find?_eq_some h, by
    have := List.find?_some h
    simpa using this⟩

theorem packBitsF_length (f : Nat) (bs : List Bool) (h : bs.length ≤ f) :
    (packBitsF f bs).length = (bs.length + 7) / 8 := by
  induction f generalizing bs with
  | zero =>
    have : bs = [] := List.length_eq_zero.mp (by omega)
    subst this
    rfl
  | succ f ih =>
    by_cases h0 : bs.isEmpty
    · rw [List.isEmpty_iff.mp h0]
      rfl
    · have hlen0 : 0 < bs.length := by
        cases bs
        · simp at h0
        · simp
      simp only [packBitsF, h0, Bool.false_eq_true, if_false, List.length_cons]
      rw [ih (bs.drop 8) (by simp only [List.length_drop]; omega)]
      simp only [List.length_drop]
      omega

theorem bitsToByte_lt (bs : List Bool) : bitsToByte bs < 2 ^ bs.length := by
  induction bs with
  | nil => simp [bitsToByte]
  | cons b rest ih =>
    simp only [bitsToByte, List.length_cons, pow_succ]
    cases b <;> simp <;> omega

theorem bitsOfNat_zero (k : Nat) : bitsOfNat k 0 = List.replicate k false := by
  induction k with
  | zero => rfl
  | succ k ih => simp [bitsOfNat, ih, List.replicate]

theorem bitsOfNat_bitsToByte (k : Nat) (t : List Bool) (h : t.length ≤ k) :
    bitsOfNat k (bitsToByte t) = t ++ List.replicate (k - t.length) false := by
  induction k generalizing t with
  | zero =>
    have : t = [] := List.length_eq_zero.mp (by omega)
    subst this
    rfl
  | succ k ih =>
    cases t with
    | nil =>
      simp only [bitsToByte, List.nil_append, List.length_nil, Nat.sub_zero]
      exact bitsOfNat_zero (k + 1)
    | cons b rest =>
      simp only [bitsOfNat, bitsToByte, List.length_cons]
      have hmod : ((if b then 1 else 0) + 2 * bitsToByte rest) % 2
          = (if b then 1 else 0) := by
        cases b <;> simp
      have hbit : ((if b then (1 : Nat) else 0) == 1) = b := by
        cases b <;> rfl
      have hd : ((if b then 1 else 0) + 2 * bitsToByte rest) / 2 = bitsToByte rest := by
        cases b
        all_goals simp
        omega
      rw [hmod, hbit, hd, ih rest (by simpa using h)]
      simp

theorem packBitsF_nil (f : Nat) : packBitsF f [] = [] := by
  cases f <;> rfl

theorem take_eight_length_le (bs : List Bool) : (bs.take 8).length ≤ 8 := by
  simp [List.length_take]

theorem unpack_packBitsF (f : Nat) (bs : List Bool) (h : bs.length ≤ f) :
    ((packBitsF f bs).map byteToBits).flatten.take bs.length = bs := by
  induction f generalizing bs with
  | zero =>
    have : bs = [] := List.length_eq_zero.mp (by omega)
    subst this
    rfl
  | succ f ih =>
    by_cases h0 : bs.isEmpty
    · rw [List.isEmpty_iff.mp h0]
      rfl
    · simp only [packBitsF, h0, Bool.false_eq_true, if_false, List.map_cons,
        List.flatten_cons]
      rw [show byteToBits (bitsToByte (bs.take 8))
          = bs.take 8 ++ List.replicate (8 - (bs.take 8).length) false from
        bitsOfNat_bitsToByte 8 _ (take_eight_length_le bs)]
      by_cases h8 : bs.length ≤ 8
      · rw [List.take_of_length_le h8, List.drop_eq_nil_of_le h8, packBitsF_nil]
        simp only [List.map_nil, List.flatten_nil, List.append_nil,
          List.append_assoc]
        exact List.take_left bs _
      · have htlen : (bs.take 8).length = 8 := by
          simp [List.length_take]
          omega
        rw [htlen]
        simp only [Nat.sub_self, List.replicate_zero, List.append_nil]
        have hsplit : bs.length = (bs.take 8).length + (bs.drop 8).length := by
          simp [List.length_take, List.length_drop]
          omega
        rw [hsplit, List.take_append,
          ih (bs.drop 8) (by simp only [List.length_drop]; omega),
          List.take_append_drop]

/-! ## Codec Engine: well-formed registries and round trip -/

/-- The arms component of `minSizeF` is bounded by the minimal size of any
member arm's field list (at every fuel). -/
theorem minSizeF_arms_le (r : Registry) (path : List Nat) (L : Nat) (a : Arm)
    (hL : ∀ g2, minSizeF g2 r (.list path (a.afields.map (fun fd => fd.ty))) ≤ L) :
    ∀ g as, a ∈ as → minSizeF g r (.arms path as) ≤ L := by
  intro g as
  induction as generalizing g with
  | nil => intro hmem; cases hmem
  | cons a0 rest ih =>
    intro hmem
    cases g with
    | zero => simp [minSizeF]
    | succ g =>
      cases rest with
      | nil =>
        have ha : a = a0 := by simpa using hmem
        subst ha
        simpa only [minSizeF] using hL g
      | cons r1 rs =>
        simp only [minSizeF]
        rcases List.mem_cons.mp hmem with h0 | hr
        · subst h0
          exact le_trans (min_le_left _ _) (hL g)
        · exact le_trans (min_le_right _ _) (ih g hr)

/-- Every successful encoding is at least as long as the minimal size of
its shape, at every fuel and path of the size computation. -/
theorem minSize_le_encLen (f : Nat) (r : Registry) :
    (∀ id v bs, encodeJob f r (.one id v) = .ok bs →
        ∀ g path, minSizeF g r (.one path id) ≤ bs.length) ∧
    (∀ id vs bs, encodeJob f r (.seqElems id vs) = .ok bs →
        ∀ g path, vs.length * minSizeF g r (.one path id) ≤ bs.length) ∧
    (∀ ids vs bs, encodeJob f r (.tupleElems ids vs) = .ok bs →
        ∀ g path, minSizeF g r (.list path ids) ≤ bs.length) ∧
    (∀ fs vfs bs, encodeJob f r (.fieldElems fs vfs) = .ok bs →
        ∀ g path, minSizeF g r (.list path (fs.map (fun fd => fd.ty)) ) ≤ bs.length) := by
  induction f with
  | zero =>
    refine ⟨?_, ?_, ?_, ?_⟩ <;> intro a b c h <;> exact absurd h (by simp [encodeJob])
  | succ f ih =>
    obtain ⟨ih1, ih2, ih3, ih4⟩ := ih
    refine ⟨?_, ?_, ?_, ?_⟩
    · -- single value
      intro id v bs henc g path
      cases g with
      | zero => simp [minSizeF]
      | succ g =>
        by_cases hp : id ∈ path
        · simp [minSizeF, hp]
        · simp only [encodeJob] at henc
          cases hres : r.resolve id with
          | none => rw [hres] at henc; cases henc
          | some d =>
            rw [hres] at henc
            cases d with
            | primitive k =>
              cases k <;> cases v <;> try cases henc
              · -- boolean kind, boolean value
                simp [minSizeF, hp, hres, PrimKind.width]
              · -- u8
                dsimp only [] at henc
                split at henc
                · injection henc with henc
                  subst henc
                  simp [minSizeF, hp, hres, leFixed_length, PrimKind.width]
                · cases henc
              · -- u16
                dsimp only [] at henc
                split at henc
                · injection henc with henc
                  subst henc
                  simp [minSizeF, hp, hres, leFixed_length, PrimKind.width]
                · cases henc
              · -- u32
                dsimp only [] at henc
                split at henc
                · injection henc with henc
                  subst henc
                  simp [minSizeF, hp, hres, leFixed_length, PrimKind.width]
                · cases henc
              · -- u64
                dsimp only [] at henc
                split at henc
                · injection henc with henc
                  subst henc
                  simp [minSizeF, hp, hres, leFixed_length, PrimKind.width]
                · cases henc
              · -- u128
                dsimp only [] at henc
                split at henc
                · injection henc with henc
                  subst henc
                  simp [minSizeF, hp, hres, leFixed_length, PrimKind.width]
                · cases henc
              · -- textual kind, textual value
                rename_i bytes
                dsimp only [] at henc
                split at henc
                · injection henc with henc
                  subst henc
                  have hmin : minSizeF (g + 1) r (.one path id) = 1 := by
                    simp [minSizeF, hp, hres]
                  rw [hmin]
                  simp only [List.length_append]
                  have := compactEncode_length_pos bytes.length
                  omega
                · cases henc
            | compact inner =>
              cases v <;> try cases henc
              rename_i n
              dsimp only [] at henc
              cases hres2 : r.resolve inner with
              | none => rw [hres2] at henc; cases henc
              | some d2 =>
                rw [hres2] at henc
                cases d2 <;> try cases henc
                dsimp only [] at henc
                split at henc
                · injection henc with henc
                  subst henc
                  have hmin : minSizeF (g + 1) r (.one path id) = 1 := by
                    simp [minSizeF, hp, hres]
                  rw [hmin]
                  exact compactEncode_length_pos n
                · cases henc
            | sequence inner =>
              cases v <;> try cases henc
              rename_i xs
              dsimp only [] at henc
              split at henc
              · cases hbody : encodeJob f r (.seqElems inner xs) with
                | error e => rw [hbody] at henc; cases henc
                | ok body =>
                  rw [hbody] at henc
                  injection henc with henc
                  subst henc
                  have hmin : minSizeF (g + 1) r (.one path id) = 1 := by
                    simp [minSizeF, hp, hres]
                  rw [hmin]
                  simp only [List.length_append]
                  have := compactEncode_length_pos xs.length
                  omega
              · cases henc
            | array len inner =>
              cases v <;> try cases henc
              rename_i xs
              dsimp only [] at henc
              split at henc
              · rename_i hlen
                have hx := ih2 inner xs bs henc g (id :: path)
                rw [hlen] at hx
                refine le_trans (le_of_eq ?_) hx
                simp [minSizeF, hp, hres]
              · cases henc
            | tuple ids =>
              cases v <;> try cases henc
              rename_i xs
              dsimp only [] at henc
              refine le_trans (le_of_eq ?_) (ih3 ids xs bs henc g (id :: path))
              simp [minSizeF, hp, hres]
            | composite cfs =>
              cases v <;> try cases henc
              rename_i vfs
              dsimp only [] at henc
              refine le_trans (le_of_eq ?_) (ih4 cfs vfs bs henc g (id :: path))
              simp [minSizeF, hp, hres]
            | variant arms =>
              cases v <;> try cases henc
              rename_i an vfs
              dsimp only [] at henc
              cases hfind : arms.find? (fun a => a.aname == an) with
              | none => rw [hfind] at henc; cases henc
              | some a =>
                rw [hfind] at henc
                dsimp only [] at henc
                split at henc
                · cases hbody : encodeJob f r (.fieldElems a.afields vfs) with
                  | error e => rw [hbody] at henc; cases henc
                  | ok body =>
                    rw [hbody] at henc
                    injection henc with henc
                    subst henc
                    have harm :=
                      minSizeF_arms_le r (id :: path) body.length a
                        (fun g2 => ih4 a.afields vfs body hbody g2 (id :: path))
                        g arms (find?_name_mem hfind).1
                    have hmin : minSizeF (g + 1) r (.one path id)
                        = 1 + minSizeF g r (.arms (id :: path) arms) := by
                      simp [minSizeF, hp, hres]
                    rw [hmin]
                    simp only [List.length_cons]
                    omega
                · cases henc
            | bitSequence so bo =>
              cases v <;> try cases henc
              rename_i bsv
              dsimp only [] at henc
              split at henc
              · injection henc with henc
                subst henc
                have hmin : minSizeF (g + 1) r (.one path id) = 1 := by
                  simp [minSizeF, hp, hres]
                rw [hmin]
                simp only [List.length_append]
                have := compactEncode_length_pos bsv.length
                omega
              · cases henc
    · -- sequence elements
      intro id vs bs henc g path
      induction vs generalizing bs with
      | nil =>
        simp only [encodeJob] at henc
        injection henc with henc
        subst henc
        simp
      | cons v rest ihv =>
        simp only [encodeJob] at henc
        cases hb : encodeJob f r (.one id v) with
        | error e => rw [hb] at henc; cases henc
        | ok b =>
          rw [hb] at henc
          cases hbs : encodeJob f r (.seqElems id rest) with
          | error e => rw [hbs] at henc; cases henc
          | ok bsr =>
            rw [hbs] at henc
            injection henc with henc
            subst henc
            have h1 := ih1 id v b hb g path
            have h2 := ih2 id rest bsr hbs g path
            simp only [List.length_cons, List.length_append, Nat.succ_mul]
            omega
    · -- tuple elements
      intro ids vs bs henc g path
      induction ids generalizing vs bs with
      | nil =>
        cases vs with
        | nil =>
          simp only [encodeJob] at henc
          injection henc with henc
          subst henc
          cases g <;> simp [minSizeF]
        | cons v rest => simp [encodeJob] at henc
      | cons id ids ihids =>
        cases vs with
        | nil => simp [encodeJob] at henc
        | cons v rest =>
          simp only [encodeJob] at henc
          cases hb : encodeJob f r (.one id v) with
          | error e => rw [hb] at henc; cases henc
          | ok b =>
            rw [hb] at henc
            cases hbs : encodeJob f r (.tupleElems ids rest) with
            | error e => rw [hbs] at henc; cases henc
            | ok bsr =>
              rw [hbs] at henc
              injection henc with henc
              subst henc
              cases g with
              | zero => simp [minSizeF]
              | succ g =>
                have h1 := ih1 id v b hb g path
                have h3 := ih3 ids rest bsr hbs g path
                simp only [minSizeF, List.length_append]
                omega
    · -- named fields
      intro fs vfs bs henc g path
      induction fs generalizing vfs bs with
      | nil =>
        cases vfs with
        | nil =>
          simp only [encodeJob] at henc
          injection henc with henc
          subst henc
          cases g <;> simp [minSizeF]
        | cons v rest => simp [encodeJob] at henc
      | cons fd fs ihfs =>
        cases vfs with
        | nil => simp [encodeJob] at henc
        | cons nv rest =>
          obtain ⟨nm, v⟩ := nv
          simp only [encodeJob] at henc
          split at henc
          · cases hb : encodeJob f r (.one fd.ty v) with
            | error e => rw [hb] at henc; cases henc
            | ok b =>
              rw [hb] at henc
              cases hbs : encodeJob f r (.fieldElems fs rest) with
              | error e => rw [hbs] at henc; cases henc
              | ok bsr =>
                rw [hbs] at henc
                injection henc with henc
                subst henc
                cases g with
                | zero => simp [minSizeF]
                | succ g =>
                  have h1 := ih1 fd.ty v b hb g path
                  have h4 := ih4 fs rest bsr hbs g path
                  simp only [minSizeF, List.map_cons, List.length_append]
                  omega
          · cases henc

/-- Round trip of the Codec Engine at every fuel, for every work item:
whatever the encoder produces, the decoder consumes exactly and
reconstructs, leaving precisely the trailing bytes. -/
theorem encode_decode (f : Nat) (r : Registry) (hwf : r.WF = true) :
    (∀ id v bs rest, encodeJob f r (.one id v) = .ok bs →
        decodeJob f r (.one id) (bs ++ rest) = .ok (.one v, rest)) ∧
    (∀ id vs bs rest, encodeJob f r (.seqElems id vs) = .ok bs →
        decodeJob f r (.seqElems id vs.length) (bs ++ rest) = .ok (.many vs, rest)) ∧
    (∀ ids vs bs rest, encodeJob f r (.tupleElems ids vs) = .ok bs →
        decodeJob f r (.tupleElems ids) (bs ++ rest) = .ok (.many vs, rest)) ∧
    (∀ fs vfs bs rest, encodeJob f r (.fieldElems fs vfs) = .ok bs →
        decodeJob f r (.fieldElems fs) (bs ++ rest) = .ok (.fields vfs, rest)) := by
  induction f with
  | zero =>
    refine ⟨?_, ?_, ?_, ?_⟩ <;> intro a b c d h <;> exact absurd h (by simp [encodeJob])
  | succ f ih =>
    obtain ⟨ih1, ih2, ih3, ih4⟩ := ih
    refine ⟨?_, ?_, ?_, ?_⟩
    · -- single value
      intro id v bs rest henc
      simp only [encodeJob] at henc
      cases hres : r.resolve id with
      | none => rw [hres] at henc; cases henc
      | some d =>
        rw [hres] at henc
        cases d with
        | primitive k =>
          cases k <;> cases v <;> try cases henc
          · -- boolean
            rename_i b
            cases b <;> simp [decodeJob, hres]
          rotate_right 1
          · -- textual
            rename_i bytes
            dsimp only [] at henc
            split at henc
            · rename_i hcond
              injection henc with henc
              subst henc
              rw [List.append_assoc]
              simp only [decodeJob, hres]
              rw [compactDecode_compactEncode bytes.length (bytes ++ rest)
                (lt_of_lt_of_le hcond.1 (by norm_num))]
              dsimp only []
              rw [if_pos (by simp)]
              rw [List.take_left, List.drop_left]
            · cases henc
          all_goals
            (dsimp only [] at henc
             split at henc
             · rename_i hcond
               injection henc with henc
               subst henc
               simp only [decodeJob, hres, PrimKind.isUInt, if_true]
               rw [if_pos (by simp [leFixed_length])]
               rw [List.take_left' (leFixed_length _ _),
                 List.drop_left' (leFixed_length _ _)]
               rw [fromLe_leFixed _ _ (by rw [pow256_eq]; exact hcond.2)]
             · cases henc)
        | compact inner =>
          cases v <;> try cases henc
          rename_i n
          dsimp only [] at henc
          cases hres2 : r.resolve inner with
          | none => rw [hres2] at henc; cases henc
          | some d2 =>
            rw [hres2] at henc
            cases d2 <;> try cases henc
            rename_i k
            dsimp only [] at henc
            split at henc
            · rename_i hcond
              injection henc with henc
              subst henc
              simp only [decodeJob, hres, hres2]
              rw [if_pos hcond.1]
              rw [compactDecode_compactEncode n rest
                (lt_of_lt_of_le hcond.2 (width_bound_le hcond.1))]
              dsimp only []
              rw [if_pos hcond.2]
            · cases henc
        | sequence inner =>
          cases v <;> try cases henc
          rename_i xs
          dsimp only [] at henc
          split at henc
          · rename_i hlt
            cases hbody : encodeJob f r (.seqElems inner xs) with
            | error e => rw [hbody] at henc; cases henc
            | ok body =>
              rw [hbody] at henc
              injection henc with henc
              subst henc
              rw [List.append_assoc]
              simp only [decodeJob, hres]
              rw [compactDecode_compactEncode xs.length (body ++ rest)
                (lt_of_lt_of_le hlt (by norm_num))]
              dsimp only []
              rw [if_pos (show xs.length * minSize r inner ≤ (body ++ rest).length from
                le_trans
                  ((minSize_le_encLen f r).2.1 inner xs body hbody (regFuel r) [])
                  (by simp))]
              rw [ih2 inner xs body rest hbody]
          · cases henc
        | array len inner =>
          cases v <;> try cases henc
          rename_i xs
          dsimp only [] at henc
          split at henc
          · rename_i hlen
            subst hlen
            simp only [decodeJob, hres]
            rw [ih2 inner xs bs rest henc]
          · cases henc
        | tuple ids =>
          cases v <;> try cases henc
          rename_i xs
          dsimp only [] at henc
          simp only [decodeJob, hres]
          rw [ih3 ids xs bs rest henc]
        | composite cfs =>
          cases v <;> try cases henc
          rename_i vfs
          dsimp only [] at henc
          simp only [decodeJob, hres]
          rw [ih4 cfs vfs bs rest henc]
        | variant arms =>
          cases v <;> try cases henc
          rename_i an vfs
          dsimp only [] at henc
          cases hfind : arms.find? (fun a => a.aname == an) with
          | none => rw [hfind] at henc; cases henc
          | some a =>
            rw [hfind] at henc
            dsimp only [] at henc
            split at henc
            · cases hbody : encodeJob f r (.fieldElems a.afields vfs) with
              | error e => rw [hbody] at henc; cases henc
              | ok body =>
                rw [hbody] at henc
                injection henc with henc
                subst henc
                obtain ⟨hnodup, _⟩ := Registry.WF.variant_facts hwf hres
                obtain ⟨hmem, hname⟩ := find?_name_mem hfind
                simp only [decodeJob, hres, List.cons_append]
                rw [find?_by_disc hmem hnodup]
                dsimp only []
                rw [ih4 a.afields vfs body rest hbody]
                rw [hname]
            · cases henc
        | bitSequence so bo =>
          cases v <;> try cases henc
          rename_i bsv
          dsimp only [] at henc
          split at henc
          · rename_i hlt
            injection henc with henc
            subst henc
            rw [List.append_assoc]
            simp only [decodeJob, hres]
            rw [compactDecode_compactEncode bsv.length (packBits bsv ++ rest)
              (lt_of_lt_of_le hlt (by norm_num))]
            dsimp only []
            have hplen : (packBits bsv).length = (bsv.length + 7) / 8 :=
              packBitsF_length bsv.length bsv le_rfl
            rw [if_pos (le_trans (le_of_eq hplen.symm) (by simp))]
            rw [List.take_left' hplen, List.drop_left' hplen]
            rw [show unpackBits bsv.length (packBits bsv) = bsv from
              by simpa [unpackBits, packBits] using
                unpack_packBitsF bsv.length bsv le_rfl]
          · cases henc
    · -- sequence elements
      intro id vs bs rest henc
      induction vs generalizing bs with
      | nil =>
        simp only [encodeJob] at henc
        injection henc with henc
        subst henc
        simp [decodeJob]
      | cons v vrest ihv =>
        simp only [encodeJob] at henc
        cases hb : encodeJob f r (.one id v) with
        | error e => rw [hb] at henc; cases henc
        | ok b =>
          rw [hb] at henc
          cases hbs : encodeJob f r (.seqElems id vrest) with
          | error e => rw [hbs] at henc; cases henc
          | ok bsr =>
            rw [hbs] at henc
            injection henc with henc
            subst henc
            simp only [List.length_cons, decodeJob, List.append_assoc]
            rw [ih1 id v b (bsr ++ rest) hb]
            dsimp only []
            rw [ih2 id vrest bsr rest hbs]
    · -- tuple elements
      intro ids vs bs rest henc
      induction ids generalizing vs bs with
      | nil =>
        cases vs with
        | nil =>
          simp only [encodeJob] at henc
          injection henc with henc
          subst henc
          simp [decodeJob]
        | cons v vrest => simp [encodeJob] at henc
      | cons id ids ihids =>
        cases vs with
        | nil => simp [encodeJob] at henc
        | cons v vrest =>
          simp only [encodeJob] at henc
          cases hb : encodeJob f r (.one id v) with
          | error e => rw [hb] at henc; cases henc
          | ok b =>
            rw [hb] at henc
            cases hbs : encodeJob f r (.tupleElems ids vrest) with
            | error e => rw [hbs] at henc; cases henc
            | ok bsr =>
              rw [hbs] at henc
              injection henc with henc
              subst henc
              simp only [decodeJob, List.append_assoc]
              rw [ih1 id v b (bsr ++ rest) hb]
              dsimp only []
              rw [ih3 ids vrest bsr rest hbs]
    · -- named fields
      intro fs vfs bs rest henc
      induction fs generalizing vfs bs with
      | nil =>
        cases vfs with
        | nil =>
          simp only [encodeJob] at henc
          injection henc with henc
          subst henc
          simp [decodeJob]
        | cons v vrest => simp [encodeJob] at henc
      | cons fd fs ihfs =>
        cases vfs with
        | nil => simp [encodeJob] at henc
        | cons nv vrest =>
          obtain ⟨nm, v⟩ := nv
          simp only [encodeJob] at henc
          split at henc
          · rename_i hname
            cases hb : encodeJob f r (.one fd.ty v) with
            | error e => rw [hb] at henc; cases henc
            | ok b =>
              rw [hb] at henc
              cases hbs : encodeJob f r (.fieldElems fs vrest) with
              | error e => rw [hbs] at henc; cases henc
              | ok bsr =>
                rw [hbs] at henc
                injection henc with henc
                subst henc
                subst hname
                simp only [decodeJob, List.append_assoc]
                rw [ih1 fd.ty v b (bsr ++ rest) hb]
                dsimp only []
                rw [ih4 fs vrest bsr rest hbs]
          · cases henc

/-- Example registry used by concrete witnesses: a composite of a `u8`
field and a `bool` field, a byte, a boolean, a sequence of bytes, a
compact `u32`, and a `u32`. -/
def exampleReg : Registry :=
  ⟨[(0, .composite [⟨some "a", 1, []⟩, ⟨some "b", 2, []⟩]),
    (1, .primitive .u8), (2, .primitive .bool),
    (3, .sequence 1), (4, .compact 5), (5, .primitive .u32)]⟩

/-- Example value matching descriptor 0 of `exampleReg`. -/
def exampleVal : Value :=
  .composite [(some "a", .uint 5), (some "b", .bool true)]

/-- C1: for every type descriptor, every value the encoder accepts against
it, and every registry (with well-formed variant discriminants) containing
it, decoding the encoder's output yields exactly the original value and an
empty remainder. -/
theorem c1_decode_encode_roundtrip (f : Nat) (r : Registry) (id : Nat)
    (v : Value) (bs : List Nat) (hwf : r.WF = true)
    (henc : encodeJob f r (.one id v) = .ok bs) :
    decodeJob f r (.one id) bs = .ok (.one v, []) := by
  have h := (encode_decode f r hwf).1 id v bs [] henc
  simpa using h

/-- Witness for C1: the spec's end-to-end example — a composite
`(a : u8 = 5, b : bool = true)` encodes to `[0x05, 0x01]` and decodes
back to itself with empty remainder. -/
theorem c1_decode_encode_roundtrip_witness :
    exampleReg.WF = true ∧
    encodeJob 10 exampleReg (.one 0 exampleVal) = .ok [5, 1] ∧
    decodeJob 10 exampleReg (.one 0) [5, 1] = .ok (.one exampleVal, []) :=
  ⟨by decide, rfl,
    c1_decode_encode_roundtrip 10 exampleReg 0 exampleVal [5, 1] (by decide) rfl⟩

/-- C6: decoding a sequence whose compact count prefix declares more
element bytes than remain fails with `UnexpectedEof`; the guard fires for
every fuel value (in particular fuel 1, before any element is decoded or
materialised), so the work and allocation before failing are independent
of the declared count. -/
theorem c6_sequence_eof_guard (f : Nat) (r : Registry) (id inner : Nat)
    (bytes restb : List Nat) (count : Nat)
    (hres : r.resolve id = some (.sequence inner))
    (hcd : compactDecode bytes = .ok (count, restb))
    (hover : restb.length < count * minSize r inner) :
    decodeJob (f + 1) r (.one id) bytes = .error .unexpectedEof := by
  simp only [decodeJob, hres, hcd]
  rw [if_neg (by omega)]

/-- Witness for C6: a declared count of 1000 bytes against an empty
remainder fails immediately with `UnexpectedEof`, already at fuel 1. -/
theorem c6_sequence_eof_guard_witness :
    exampleReg.resolve 3 = some (.sequence 1) ∧
    compactDecode (compactEncode 1000) = .ok (1000, []) ∧
    (0 : Nat) < 1000 * minSize exampleReg 1 ∧
    decodeJob 1 exampleReg (.one 3) (compactEncode 1000) = .error .unexpectedEof :=
  ⟨rfl, rfl, by decide,
    c6_sequence_eof_guard 0 exampleReg 3 1 (compactEncode 1000) [] 1000
      rfl rfl (by decide)⟩

/-- C7: the encoder is deterministic — equal inputs produce identical
byte strings — and total: it always returns a result (in the model it is
a pure function of value, type id, registry and the defensive depth
budget). -/
theorem c7_encode_deterministic (f1 f2 : Nat) (r1 r2 : Registry)
    (id1 id2 : Nat) (v1 v2 : Value)
    (hf : f1 = f2) (hr : r1 = r2) (hid : id1 = id2) (hv : v1 = v2) :
    encodeJob f1 r1 (.one id1 v1) = encodeJob f2 r2 (.one id2 v2) ∧
    ∃ out, encodeJob f1 r1 (.one id1 v1) = out := by
  subst hf hr hid hv
  exact ⟨rfl, _, rfl⟩

/-- Witness for C7 at a concrete input. -/
theorem c7_encode_deterministic_witness :
    encodeJob 10 exampleReg (.one 0 exampleVal)
      = encodeJob 10 exampleReg (.one 0 exampleVal) ∧
    ∃ out, encodeJob 10 exampleReg (.one 0 exampleVal) = out :=
  c7_encode_deterministic 10 10 exampleReg exampleReg 0 0 exampleVal exampleVal
    rfl rfl rfl rfl

/-! ## Compatibility Hasher

Modelled from the spec (§4.3): the Compatibility Hash of an entry is
computed over a canonical serialization of its resolved shape — every type
id is recursively replaced by its descriptor, names of fields/variants and
documentation are excluded, discriminants and order are included, and an
id already being expanded on the current path is replaced by an opaque
placeholder (its de Bruijn position on the path).  The spec leaves the
concrete byte serialization open (§9), requiring only determinism and
enough injectivity, so the hash is modelled as the canonical resolved
structure itself. -/

/-- Modelled from the spec (§4.3): canonical resolved structure.  Lists of
shapes are represented by an inlined spine (`nilS`/`consS`, and `armS`
nodes carrying the discriminant for variant arms), so equality is
decidable by derivation. -/
inductive Shape where
  | prim (k : PrimKind)
  | compact (s : Shape)
  | sequence (s : Shape)
  | array (len : Nat) (s : Shape)
  | tuple (spine : Shape)
  | composite (spine : Shape)
  | variant (spine : Shape)
  | bits (storeOrder : Nat) (bitOrder : Nat)
  | cyclePlaceholder (depth : Nat)
  | missing
  | nilS
  | consS (head : Shape) (tail : Shape)
  | armS (disc : Nat) (fieldSpine : Shape) (tail : Shape)
deriving DecidableEq, Repr

/-- Work items for the resolved-shape computation. -/
inductive HashJob where
  | one (path : List Nat) (id : Nat)
  | many (path : List Nat) (ids : List Nat)
  | fields (path : List Nat) (fs : List Field)
  | arms (path : List Nat) (arms : List Arm)

/-- Modelled from the spec (§4.3): compute the canonical resolved shape,
guarding recursion through the registry with the expansion path (an id on
the path becomes `cyclePlaceholder` of its position) and a structural fuel
(`missing` when exhausted; the stabilization theorem shows ample fuel
exists for every registry, cyclic ones included). -/
def shapeF : Nat → Registry → HashJob → Shape
  | 0, _, _ => .missing
  | f + 1, r, .one path id =>
    if id ∈ path then .cyclePlaceholder (path.indexOf id)
    else
      match r.resolve id with
      | none => .missing
      | some (.primitive k) => .prim k
      | some (.compact inner) => .compact (shapeF f r (.one (id :: path) inner))
      | some (.sequence inner) => .sequence (shapeF f r (.one (id :: path) inner))
      | some (.array len inner) => .array len (shapeF f r (.one (id :: path) inner))
      | some (.tuple ids) => .tuple (shapeF f r (.many (id :: path) ids))
      | some (.composite fs) => .composite (shapeF f r (.fields (id :: path) fs))
      | some (.variant arms) => .variant (shapeF f r (.arms (id :: path) arms))
      | some (.bitSequence so bo) => .bits so bo
  | f + 1, r, .many path ids =>
    match ids with
    | [] => .nilS
    | i :: rest => .consS (shapeF f r (.one path i)) (shapeF f r (.many path rest))
  | f + 1, r, .fields path fs =>
    match fs with
    | [] => .nilS
    | fd :: rest =>
        .consS (shapeF f r (.one path fd.ty)) (shapeF f r (.fields path rest))
  | f + 1, r, .arms path as =>
    match as with
    | [] => .nilS
    | a :: rest =>
        .armS a.disc (shapeF f r (.fields path a.afields))
          (shapeF f r (.arms path rest))

/-- Registry ids not yet on the expansion path. -/
def unvisited (r : Registry) (path : List Nat) : Nat :=
  ((r.types.map (fun p => p.1)).filter (fun i => !(path.contains i))).length

/-- Total descriptor weight of a registry plus one. -/
def weightSum (r : Registry) : Nat :=
  (r.types.map (fun p => defWeight p.2)).sum + 1

/-- Fuel ample for a full resolved-shape computation from an empty path. -/
def stabFuel (r : Registry) : Nat :=
  (r.types.length + 1) * weightSum r + 1

/-- Modelled from the spec (§4.3): the Compatibility Hash of a single type
id — its canonical resolved shape. -/
def typeHash (r : Registry) (id : Nat) : Shape :=
  shapeF (stabFuel r) r (.one [] id)

/-- Modelled from the spec (§3 Metadata Entry): a call descriptor — name,
index (its discriminant byte in the call payload), and ordered named
arguments referencing registry type ids. -/
structure CallDesc where
  cname : String
  cindex : Nat
  args : List (Option String × Nat)
deriving DecidableEq, Repr

/-- Modelled from the spec (§3 Metadata Entry): a pallet — name, index,
calls, and an event variant set. -/
structure Pallet where
  pname : String
  pindex : Nat
  calls : List CallDesc
  events : List Arm
deriving DecidableEq, Repr

/-- Fuel ample for an entry hash: registry fuel plus the entry's own arm
and field traversal weight. -/
def entryFuel (r : Registry) (extra : Nat) : Nat :=
  stabFuel r + extra + 1

/-- Modelled from the spec (§4.3): the Compatibility Hash of a call entry:
its wire discriminant (call index) and the resolved shapes of its
arguments in order; argument names are excluded. -/
def callHash (r : Registry) (c : CallDesc) : Nat × Shape :=
  (c.cindex,
    shapeF (entryFuel r c.args.length) r (.many [] (c.args.map (fun a => a.2))))

/-- Traversal weight of an event entry's arm list. -/
def armsWeight (arms : List Arm) : Nat :=
  (arms.map (fun a => a.afields.length + 2)).sum

/-- Modelled from the spec (§4.3): the Compatibility Hash of an event (or
error) variant-set entry: for each arm in order, its discriminant and its
field shapes; arm names, field names and documentation are excluded. -/
def eventHash (r : Registry) (arms : List Arm) : Shape :=
  shapeF (entryFuel r (armsWeight arms)) r (.arms [] arms)

theorem length_filter_mono (l : List Nat) (p q : Nat → Bool)
    (h : ∀ a, p a = true → q a = true) :
    (l.filter p).length ≤ (l.filter q).length :=
  (List.monotone_filter_right l (fun a ha => h a ha)).length_le

theorem unvisited_le (r : Registry) (path : List Nat) :
    unvisited r path ≤ r.types.length := by
  unfold unvisited
  calc ((r.types.map (fun p => p.1)).filter _).length
      ≤ (r.types.map (fun p => p.1)).length := List.length_filter_le _ _
    _ = r.types.length := List.length_map _ _

theorem unvisited_cons_lt (r : Registry) (path : List Nat) (id : Nat)
    (hmem : id ∈ r.types.map (fun p => p.1)) (hnp : id ∉ path) :
    unvisited r (id :: path) < unvisited r path := by
  unfold unvisited
  generalize r.types.map (fun p => p.1) = l at hmem
  induction l with
  | nil => cases hmem
  | cons x xs ih =>
    simp only [List.filter_cons]
    rcases List.mem_cons.mp hmem with hx | hxs
    · subst hx
      have h1 : (!((id :: path).contains id)) = false := by simp
      have h2 : (!(path.contains id)) = true := by simpa using hnp
      rw [h1, h2]
      simp only [Bool.false_eq_true, if_false, if_true, List.length_cons]
      have htail : (xs.filter (fun i => !((id :: path).contains i))).length
          ≤ (xs.filter (fun i => !(path.contains i))).length := by
        refine length_filter_mono _ _ _ fun a ha => ?_
        have ha2 : a ∉ id :: path := by simpa using ha
        have ha3 : a ∉ path := fun h => ha2 (List.mem_cons_of_mem _ h)
        simpa using ha3
      omega
    · have hlt := ih hxs
      by_cases hxp : (!(path.contains x)) = true
      · by_cases hxn : (!((id :: path).contains x)) = true
        · rw [if_pos hxn, if_pos hxp]
          simp only [List.length_cons]
          omega
        · rw [if_neg (by simp only [hxn]; exact fun h => absurd h (by simp [hxn])),
            if_pos hxp]
          simp only [List.length_cons]
          omega
      · have hxmem : x ∈ path := by
          by_contra hxm
          exact hxp (by simpa using hxm)
        have hxn : ¬((!((id :: path).contains x)) = true) := by
          simp only [Bool.not_eq_true]
          simp [List.mem_cons_of_mem _ hxmem]
        rw [if_neg hxn, if_neg hxp]
        exact hlt

theorem resolve_mem_keys (r : Registry) (id : Nat) (d : TypeDef)
    (h : r.resolve id = some d) : id ∈ r.types.map (fun p => p.1) := by
  unfold Registry.resolve at h
  cases hf : r.types.find? (fun p => p.1 == id) with
  | none => rw [hf] at h; cases h
  | some p =>
    have hmem := List.mem_of_find?_eq_some hf
    have hid : p.1 = id := by simpa using List.find?_some hf
    rw [← hid]
    exact List.mem_map_of_mem _ hmem

theorem resolve_defWeight_lt (r : Registry) (id : Nat) (d : TypeDef)
    (h : r.resolve id = some d) : defWeight d < weightSum r := by
  unfold Registry.resolve at h
  cases hf : r.types.find? (fun p => p.1 == id) with
  | none => rw [hf] at h; cases h
  | some p =>
    rw [hf] at h
    injection h with h
    subst h
    have hmem := List.mem_of_find?_eq_some hf
    have hsum : defWeight p.2 ≤ (r.types.map (fun q => defWeight q.2)).sum :=
      List.single_le_sum (fun x _ => Nat.zero_le x) _
        (List.mem_map_of_mem _ hmem)
    calc defWeight p.2 ≤ (r.types.map (fun q => defWeight q.2)).sum := hsum
      _ < (r.types.map (fun q => defWeight q.2)).sum + 1 := Nat.lt_succ_self _
      _ = weightSum r := rfl

/-- The resolved-shape computation stabilizes: any two fuels above the
path-dependent bound give the same result, on every registry (cyclic type
graphs included — the path guard cuts every cycle). -/
theorem shapeF_stabilizes (r : Registry) : ∀ f g,
    (∀ path id, unvisited r path * weightSum r + 1 ≤ f →
        unvisited r path * weightSum r + 1 ≤ g →
        shapeF f r (.one path id) = shapeF g r (.one path id)) ∧
    (∀ path ids, unvisited r path * weightSum r + ids.length + 1 ≤ f →
        unvisited r path * weightSum r + ids.length + 1 ≤ g →
        shapeF f r (.many path ids) = shapeF g r (.many path ids)) ∧
    (∀ path fs, unvisited r path * weightSum r + fs.length + 1 ≤ f →
        unvisited r path * weightSum r + fs.length + 1 ≤ g →
        shapeF f r (.fields path fs) = shapeF g r (.fields path fs)) ∧
    (∀ path as, unvisited r path * weightSum r + armsWeight as + 1 ≤ f →
        unvisited r path * weightSum r + armsWeight as + 1 ≤ g →
        shapeF f r (.arms path as) = shapeF g r (.arms path as)) := by
  intro f
  induction f with
  | zero =>
    refine fun g => ⟨?_, ?_, ?_, ?_⟩ <;> intro path x hf hg <;>
      exact (Nat.not_succ_le_zero _ hf).elim
  | succ f ih =>
    intro g
    have hW : 1 ≤ weightSum r := by unfold weightSum; omega
    refine ⟨?_, ?_, ?_, ?_⟩
    · intro path id hf hg
      cases g with
      | zero => omega
      | succ g =>
        by_cases hp : id ∈ path
        · simp [shapeF, hp]
        · simp only [shapeF, hp, if_false]
          cases hres : r.resolve id with
          | none => rfl
          | some d =>
            have hkey := resolve_mem_keys r id d hres
            have hwlt := resolve_defWeight_lt r id d hres
            have huv := unvisited_cons_lt r path id hkey hp
            have hb : unvisited r (id :: path) * weightSum r + weightSum r
                ≤ unvisited r path * weightSum r := by
              have h2 := Nat.mul_le_mul_right (weightSum r) (Nat.succ_le_of_lt huv)
              calc unvisited r (id :: path) * weightSum r + weightSum r
                  = (unvisited r (id :: path) + 1) * weightSum r := by ring
                _ ≤ unvisited r path * weightSum r := by
                    simpa [Nat.succ_eq_add_one] using h2
            cases d with
            | primitive k => rfl
            | compact inner =>
              exact congrArg Shape.compact
                ((ih (g := g)).1 (id :: path) inner (by omega) (by omega))
            | sequence inner =>
              exact congrArg Shape.sequence
                ((ih (g := g)).1 (id :: path) inner (by omega) (by omega))
            | array len inner =>
              exact congrArg (Shape.array len)
                ((ih (g := g)).1 (id :: path) inner (by omega) (by omega))
            | tuple ids =>
              have hdw : defWeight (TypeDef.tuple ids) = ids.length + 2 := rfl
              exact congrArg Shape.tuple
                ((ih (g := g)).2.1 (id :: path) ids (by omega) (by omega))
            | composite fs =>
              have hdw : defWeight (TypeDef.composite fs) = fs.length + 2 := rfl
              exact congrArg Shape.composite
                ((ih (g := g)).2.2.1 (id :: path) fs (by omega) (by omega))
            | variant arms =>
              have hdw : defWeight (TypeDef.variant arms) = armsWeight arms + 2 := by
                simp [defWeight, armsWeight]
              exact congrArg Shape.variant
                ((ih (g := g)).2.2.2 (id :: path) arms (by omega) (by omega))
            | bitSequence so bo => rfl
    · intro path ids hf hg
      cases g with
      | zero => omega
      | succ g =>
        cases ids with
        | nil => simp [shapeF]
        | cons i rest =>
          simp only [shapeF, List.length_cons] at hf hg ⊢
          rw [(ih (g := g)).1 path i (by omega) (by omega),
            (ih (g := g)).2.1 path rest (by omega) (by omega)]
    · intro path fs hf hg
      cases g with
      | zero => omega
      | succ g =>
        cases fs with
        | nil => simp [shapeF]
        | cons fd rest =>
          simp only [shapeF, List.length_cons] at hf hg ⊢
          rw [(ih (g := g)).1 path fd.ty (by omega) (by omega),
            (ih (g := g)).2.2.1 path rest (by omega) (by omega)]
    · intro path as hf hg
      cases g with
      | zero => omega
      | succ g =>
        cases as with
        | nil => simp [shapeF]
        | cons a rest =>
          have haw : armsWeight (a :: rest)
              = a.afields.length + 2 + armsWeight rest := by
            simp [armsWeight]
          rw [haw] at hf hg
          simp only [shapeF]
          rw [(ih (g := g)).2.2.1 path a.afields (by omega) (by omega),
            (ih (g := g)).2.2.2 path rest (by omega) (by omega)]

/-- A self-referential registry: type 0 is a composite whose single field
is type 0 again. -/
def selfReg : Registry :=
  ⟨[(0, .composite [⟨some "next", 0, []⟩])]⟩

/-- C9: the Compatibility Hasher terminates on every registry, including
self-referential and mutually recursive type graphs: above the explicit
fuel bound `stabFuel` the computation is stable (so the bounded-depth
computation is the total function `typeHash`), an id already being
expanded on the current path is hashed as an opaque placeholder (its path
position) instead of being expanded again, and the resulting hash is
deterministic — the same registry always yields the same value. -/
theorem c9_hasher_terminates (r : Registry) (f : Nat) :
    (stabFuel r ≤ f → ∀ id, shapeF f r (.one [] id) = typeHash r id) ∧
    (∀ path id, id ∈ path → 1 ≤ f →
        shapeF f r (.one path id) = .cyclePlaceholder (path.indexOf id)) ∧
    (∀ r2 : Registry, r2 = r → ∀ id, typeHash r2 id = typeHash r id) := by
  refine ⟨?_, ?_, ?_⟩
  · intro hf id
    have hb : unvisited r [] * weightSum r + 1 ≤ stabFuel r := by
      have h1 : unvisited r [] * weightSum r
          ≤ r.types.length * weightSum r :=
        Nat.mul_le_mul_right _ (unvisited_le r [])
      have h2 : r.types.length * weightSum r
          ≤ (r.types.length + 1) * weightSum r :=
        Nat.mul_le_mul_right _ (by omega)
      unfold stabFuel
      omega
    exact (shapeF_stabilizes r f (stabFuel r)).1 [] id (by omega) hb
  · intro path id hmem hf
    cases f with
    | zero => omega
    | succ f => simp [shapeF, hmem]
  · intro r2 h id
    rw [h]

/-- Witness for C9 on the self-referential registry `selfReg`: extra fuel
changes nothing, the guard hashes the self-reference as a placeholder, and
the hash value is the expected finite shape. -/
theorem c9_hasher_terminates_witness :
    (shapeF (stabFuel selfReg + 5) selfReg (.one [] 0) = typeHash selfReg 0) ∧
    (shapeF 3 selfReg (.one [0] 0) = .cyclePlaceholder 0) ∧
    (typeHash selfReg 0 = typeHash selfReg 0) ∧
    typeHash selfReg 0 = .composite (.consS (.cyclePlaceholder 0) .nilS) :=
  ⟨(c9_hasher_terminates selfReg (stabFuel selfReg + 5)).1
      (Nat.le_add_right _ _) 0,
    by
      have h := (c9_hasher_terminates selfReg 3).2.1 [0] 0 (by decide) (by decide)
      simpa using h,
    (c9_hasher_terminates selfReg 0).2.2 selfReg rfl 0,
    by decide⟩

/-! ## Renumbering invariance of the Compatibility Hash -/

/-- Rename the type id a field references. -/
def mapField (phi : Nat → Nat) (fd : Field) : Field :=
  { fd with ty := phi fd.ty }

/-- Rename the type ids an arm's fields reference. -/
def mapArm (phi : Nat → Nat) (a : Arm) : Arm :=
  { a with afields := a.afields.map (mapField phi) }

/-- Rename every type id a descriptor references. -/
def mapDefIds (phi : Nat → Nat) : TypeDef → TypeDef
  | .primitive k => .primitive k
  | .compact i => .compact (phi i)
  | .sequence i => .sequence (phi i)
  | .array n i => .array n (phi i)
  | .tuple ids => .tuple (ids.map phi)
  | .composite fs => .composite (fs.map (mapField phi))
  | .variant arms => .variant (arms.map (mapArm phi))
  | .bitSequence so bo => .bitSequence so bo

/-- Renumber a registry: every id and every referenced id through `phi`. -/
def mapRegistry (phi : Nat → Nat) (r : Registry) : Registry :=
  ⟨r.types.map (fun p => (phi p.1, mapDefIds phi p.2))⟩

/-- Rename the argument type ids of a call descriptor. -/
def mapCall (phi : Nat → Nat) (c : CallDesc) : CallDesc :=
  { c with args := c.args.map (fun a => (a.1, phi a.2)) }

theorem defWeight_mapDefIds (phi : Nat → Nat) (d : TypeDef) :
    defWeight (mapDefIds phi d) = defWeight d := by
  cases d with
  | variant arms =>
    simp only [mapDefIds, defWeight, List.map_map]
    have hcong : ∀ a ∈ arms,
        ((fun a => a.afields.length + 2) ∘ mapArm phi) a
          = (fun a => a.afields.length + 2) a := by
      intro a _
      simp [mapArm]
    rw [List.map_congr_left hcong]
  | _ => simp [mapDefIds, defWeight]

theorem weightSum_mapRegistry (phi : Nat → Nat) (r : Registry) :
    weightSum (mapRegistry phi r) = weightSum r := by
  unfold weightSum mapRegistry
  simp only [List.map_map]
  have hcong : ∀ p ∈ r.types,
      ((fun p => defWeight p.2) ∘ fun p => (phi p.1, mapDefIds phi p.2)) p
        = (fun p => defWeight p.2) p := by
    intro p _
    simp [defWeight_mapDefIds]
  rw [List.map_congr_left hcong]

theorem stabFuel_mapRegistry (phi : Nat → Nat) (r : Registry) :
    stabFuel (mapRegistry phi r) = stabFuel r := by
  unfold stabFuel
  rw [weightSum_mapRegistry]
  have hlen : (mapRegistry phi r).types.length = r.types.length := by
    simp [mapRegistry]
  rw [hlen]

theorem resolve_mapRegistry (phi : Nat → Nat)
    (hinj : ∀ a b, phi a = phi b → a = b) (r : Registry) (id : Nat) :
    (mapRegistry phi r).resolve (phi id)
      = (r.resolve id).map (mapDefIds phi) := by
  unfold Registry.resolve mapRegistry
  simp only []
  induction r.types with
  | nil => rfl
  | cons p rest ih =>
    by_cases h : p.1 = id
    · simp [List.find?, h]
    · have h2 : (phi p.1 == phi id) = false := by
        simp only [beq_eq_false_iff_ne, ne_eq]
        exact fun he => h (hinj _ _ he)
      have h3 : (p.1 == id) = false := by simpa using h
      simp only [List.map_cons, List.find?, h2, h3]
      exact ih

theorem mem_map_phi (phi : Nat → Nat) (hinj : ∀ a b, phi a = phi b → a = b)
    (id : Nat) (path : List Nat) :
    (phi id ∈ path.map phi) ↔ id ∈ path := by
  constructor
  · intro h
    obtain ⟨x, hx, he⟩ := List.mem_map.mp h
    rwa [hinj _ _ he] at hx
  · exact fun h => List.mem_map_of_mem phi h

theorem indexOf_map_phi (phi : Nat → Nat)
    (hinj : ∀ a b, phi a = phi b → a = b) (id : Nat) (path : List Nat) :
    List.indexOf (phi id) (path.map phi) = List.indexOf id path := by
  induction path with
  | nil => rfl
  | cons x xs ih =>
    by_cases h : x = id
    · subst h
      simp
    · rw [List.map_cons, List.indexOf_cons_ne _ (fun he => h (hinj _ _ he)),
        List.indexOf_cons_ne _ h, ih]

/-- Renumbering a registry through an injective id map leaves every
resolved shape unchanged, at every fuel and path. -/
theorem shapeF_mapRegistry (phi : Nat → Nat)
    (hinj : ∀ a b, phi a = phi b → a = b) (r : Registry) : ∀ f,
    (∀ path id, shapeF f (mapRegistry phi r) (.one (path.map phi) (phi id))
        = shapeF f r (.one path id)) ∧
    (∀ path ids, shapeF f (mapRegistry phi r) (.many (path.map phi) (ids.map phi))
        = shapeF f r (.many path ids)) ∧
    (∀ path fs, shapeF f (mapRegistry phi r)
        (.fields (path.map phi) (fs.map (mapField phi)))
        = shapeF f r (.fields path fs)) ∧
    (∀ path as, shapeF f (mapRegistry phi r)
        (.arms (path.map phi) (as.map (mapArm phi)))
        = shapeF f r (.arms path as)) := by
  intro f
  induction f with
  | zero => exact ⟨fun _ _ => rfl, fun _ _ => rfl, fun _ _ => rfl, fun _ _ => rfl⟩
  | succ f ih =>
    obtain ⟨ih1, ih2, ih3, ih4⟩ := ih
    refine ⟨?_, ?_, ?_, ?_⟩
    · intro path id
      by_cases hp : id ∈ path
      · have hp2 : phi id ∈ path.map phi := (mem_map_phi phi hinj id path).mpr hp
        simp [shapeF, hp, hp2, indexOf_map_phi phi hinj]
      · have hp2 : phi id ∉ path.map phi := fun h =>
          hp ((mem_map_phi phi hinj id path).mp h)
        simp only [shapeF, hp, hp2, if_false]
        rw [resolve_mapRegistry phi hinj r id]
        cases hres : r.resolve id with
        | none => rfl
        | some d =>
          cases d with
          | primitive k => rfl
          | compact inner =>
            simp only [Option.map_some', mapDefIds]
            rw [show phi id :: path.map phi = (id :: path).map phi from rfl,
              ih1 (id :: path) inner]
          | sequence inner =>
            simp only [Option.map_some', mapDefIds]
            rw [show phi id :: path.map phi = (id :: path).map phi from rfl,
              ih1 (id :: path) inner]
          | array len inner =>
            simp only [Option.map_some', mapDefIds]
            rw [show phi id :: path.map phi = (id :: path).map phi from rfl,
              ih1 (id :: path) inner]
          | tuple ids =>
            simp only [Option.map_some', mapDefIds]
            rw [show phi id :: path.map phi = (id :: path).map phi from rfl,
              ih2 (id :: path) ids]
          | composite fs =>
            simp only [Option.map_some', mapDefIds]
            rw [show phi id :: path.map phi = (id :: path).map phi from rfl,
              ih3 (id :: path) fs]
          | variant arms =>
            simp only [Option.map_some', mapDefIds]
            rw [show phi id :: path.map phi = (id :: path).map phi from rfl,
              ih4 (id :: path) arms]
          | bitSequence so bo => rfl
    · intro path ids
      cases ids with
      | nil => rfl
      | cons i rest =>
        simp only [List.map_cons, shapeF]
        rw [ih1 path i, ih2 path rest]
    · intro path fs
      cases fs with
      | nil => rfl
      | cons fd rest =>
        simp only [List.map_cons, shapeF, mapField]
        rw [ih1 path fd.ty, ih3 path rest]
    · intro path as
      cases as with
      | nil => rfl
      | cons a rest =>
        simp only [List.map_cons, shapeF, mapArm]
        rw [ih3 path a.afields, ih4 path rest]

theorem armsWeight_map (phi : Nat → Nat) (arms : List Arm) :
    armsWeight (arms.map (mapArm phi)) = armsWeight arms := by
  unfold armsWeight
  simp only [List.map_map]
  have hcong : ∀ a ∈ arms,
      ((fun a => a.afields.length + 2) ∘ mapArm phi) a
        = (fun a => a.afields.length + 2) a := by
    intro a _
    simp [mapArm]
  rw [List.map_congr_left hcong]

/-- C4: registries that assign different numeric ids to structurally
identical type graphs (an injective renumbering of ids) give equal
Compatibility Hashes to equivalent entries — the hash depends only on
resolved structure, never on the numeric ids. -/
theorem c4_hash_renumbering (phi : Nat → Nat) (r : Registry)
    (hinj : ∀ a b, phi a = phi b → a = b) :
    (∀ id, typeHash (mapRegistry phi r) (phi id) = typeHash r id) ∧
    (∀ c : CallDesc, callHash (mapRegistry phi r) (mapCall phi c) = callHash r c) ∧
    (∀ arms : List Arm,
        eventHash (mapRegistry phi r) (arms.map (mapArm phi)) = eventHash r arms) := by
  refine ⟨?_, ?_, ?_⟩
  · intro id
    unfold typeHash
    rw [stabFuel_mapRegistry]
    exact (shapeF_mapRegistry phi hinj r (stabFuel r)).1 [] id
  · intro c
    unfold callHash mapCall entryFuel
    rw [stabFuel_mapRegistry]
    simp only [List.length_map]
    have hargs : (c.args.map (fun a => (a.1, phi a.2))).map (fun a => a.2)
        = (c.args.map (fun a => a.2)).map phi := by
      simp [List.map_map, Function.comp]
    refine congrArg (Prod.mk c.cindex) ?_
    rw [hargs]
    exact (shapeF_mapRegistry phi hinj r
      (stabFuel r + c.args.length + 1)).2.1 [] (c.args.map (fun a => a.2))
  · intro arms
    unfold eventHash entryFuel
    rw [stabFuel_mapRegistry, armsWeight_map]
    exact (shapeF_mapRegistry phi hinj r
      (stabFuel r + armsWeight arms + 1)).2.2.2 [] arms

/-- Registry for the C4 witness: a composite referencing a byte. -/
def renumReg : Registry :=
  ⟨[(0, .composite [⟨some "x", 1, []⟩]), (1, .primitive .u8)]⟩

/-- Witness for C4: shifting every id of `renumReg` by 5 produces a
registry with different numeric ids but identical hashes for the
corresponding type, call and event entries. -/
theorem c4_hash_renumbering_witness :
    mapRegistry (fun i => i + 5) renumReg
      = ⟨[(5, .composite [⟨some "x", 6, []⟩]), (6, .primitive .u8)]⟩ ∧
    typeHash (mapRegistry (fun i => i + 5) renumReg) 5 = typeHash renumReg 0 ∧
    callHash (mapRegistry (fun i => i + 5) renumReg)
        (mapCall (fun i => i + 5) ⟨"transfer", 2, [(some "amount", 0)]⟩)
      = callHash renumReg ⟨"transfer", 2, [(some "amount", 0)]⟩ ∧
    eventHash (mapRegistry (fun i => i + 5) renumReg)
        ([⟨"Transferred", 0, [⟨none, 0, []⟩], []⟩].map (mapArm (fun i => i + 5)))
      = eventHash renumReg [⟨"Transferred", 0, [⟨none, 0, []⟩], []⟩] :=
  ⟨by decide,
    (c4_hash_renumbering (fun i => i + 5) renumReg
      (fun a b h => Nat.add_right_cancel h)).1 0,
    (c4_hash_renumbering (fun i => i + 5) renumReg
      (fun a b h => Nat.add_right_cancel h)).2.1 ⟨"transfer", 2, [(some "amount", 0)]⟩,
    (c4_hash_renumbering (fun i => i + 5) renumReg
      (fun a b h => Nat.add_right_cancel h)).2.2 [⟨"Transferred", 0, [⟨none, 0, []⟩], []⟩]⟩

/-! ## Sensitivity of the Compatibility Hash -/

/-- Length of an arm spine. -/
def spineLen : Shape → Nat
  | .armS _ _ t => spineLen t + 1
  | _ => 0

/-- A field with its name and documentation erased. -/
def eraseField (fd : Field) : Field :=
  ⟨none, fd.ty, []⟩

/-- An arm with its name, field names and documentation erased. -/
def eraseArm (a : Arm) : Arm :=
  ⟨"", a.disc, a.afields.map eraseField, []⟩

theorem length_le_armsWeight (arms : List Arm) :
    arms.length ≤ armsWeight arms := by
  induction arms with
  | nil => simp [armsWeight]
  | cons a rest ih =>
    have h : armsWeight (a :: rest) = a.afields.length + 2 + armsWeight rest := by
      simp [armsWeight]
    simp only [List.length_cons]
    omega

theorem spineLen_shapeF_arms (r : Registry) :
    ∀ (arms : List Arm) (f : Nat) (path : List Nat), arms.length ≤ f →
      spineLen (shapeF f r (.arms path arms)) = arms.length := by
  intro arms
  induction arms with
  | nil =>
    intro f path hf
    cases f <;> rfl
  | cons a rest ih =>
    intro f path hf
    cases f with
    | zero => simp at hf
    | succ f =>
      simp only [shapeF, spineLen, List.length_cons]
      rw [ih f path (by simpa using hf)]

/-- Two arm lists that differ in one arm's discriminant produce different
arm spines (at any common fuel reaching the changed position). -/
theorem shapeF_arms_disc_ne (r : Registry) :
    ∀ (pre : List Arm) (f : Nat) (path : List Nat) (a1 a2 : Arm)
      (post : List Arm),
      a1.disc ≠ a2.disc → pre.length + 1 ≤ f →
      shapeF f r (.arms path (pre ++ a1 :: post))
        ≠ shapeF f r (.arms path (pre ++ a2 :: post)) := by
  intro pre
  induction pre with
  | nil =>
    intro f path a1 a2 post hne hf heq
    cases f with
    | zero => omega
    | succ f =>
      simp only [List.nil_append, shapeF] at heq
      injection heq with h1 h2 h3
      exact hne h1
  | cons p pre ih =>
    intro f path a1 a2 post hne hf heq
    cases f with
    | zero => simp at hf
    | succ f =>
      simp only [List.cons_append, shapeF] at heq
      injection heq with h1 h2 h3
      exact ih f path a1 a2 post hne (by simpa using hf) h3

/-- Two id lists that differ at one position produce spines whose heads at
that position are the sub-shapes of the two ids (at the residual fuel). -/
theorem shapeF_many_split (r : Registry) :
    ∀ (pre : List Nat) (f : Nat) (path : List Nat) (t1 t2 : Nat)
      (post : List Nat),
      pre.length + 1 ≤ f →
      shapeF f r (.many path (pre ++ t1 :: post))
        = shapeF f r (.many path (pre ++ t2 :: post)) →
      shapeF (f - (pre.length + 1)) r (.one path t1)
        = shapeF (f - (pre.length + 1)) r (.one path t2) := by
  intro pre
  induction pre with
  | nil =>
    intro f path t1 t2 post hf heq
    cases f with
    | zero => omega
    | succ f =>
      simp only [List.nil_append, shapeF] at heq
      rw [Shape.consS.injEq] at heq
      simpa using heq.1
  | cons p pre ih =>
    intro f path t1 t2 post hf heq
    cases f with
    | zero => simp at hf
    | succ f =>
      simp only [List.cons_append, shapeF] at heq
      rw [Shape.consS.injEq] at heq
      have := ih f path t1 t2 post (by simpa using hf) heq.2
      simpa [Nat.succ_sub_one] using this

theorem bound_le_stabFuel (r : Registry) :
    unvisited r [] * weightSum r + 1 ≤ stabFuel r := by
  have h1 : unvisited r [] * weightSum r ≤ r.types.length * weightSum r :=
    Nat.mul_le_mul_right _ (unvisited_le r [])
  have h2 : r.types.length * weightSum r ≤ (r.types.length + 1) * weightSum r :=
    Nat.mul_le_mul_right _ (by omega)
  unfold stabFuel
  omega

/-- Names and documentation do not enter the resolved shape: arm lists and
field lists that agree after erasing names/docs compute identical shapes. -/
theorem shapeF_erase_invariant (r : Registry) : ∀ f,
    (∀ path fs1 fs2, fs1.map eraseField = fs2.map eraseField →
        shapeF f r (.fields path fs1) = shapeF f r (.fields path fs2)) ∧
    (∀ path as1 as2, as1.map eraseArm = as2.map eraseArm →
        shapeF f r (.arms path as1) = shapeF f r (.arms path as2)) := by
  intro f
  induction f with
  | zero => exact ⟨fun _ _ _ _ => rfl, fun _ _ _ _ => rfl⟩
  | succ f ih =>
    obtain ⟨ihf, iha⟩ := ih
    refine ⟨?_, ?_⟩
    · intro path fs1 fs2 he
      cases fs1 with
      | nil =>
        cases fs2 with
        | nil => rfl
        | cons b bs => simp at he
      | cons a as =>
        cases fs2 with
        | nil => simp at he
        | cons b bs =>
          simp only [List.map_cons, List.cons.injEq] at he
          have hty : a.ty = b.ty := by
            have := he.1
            simpa [eraseField] using this
          simp only [shapeF, hty]
          rw [ihf path as bs he.2]
    · intro path as1 as2 he
      cases as1 with
      | nil =>
        cases as2 with
        | nil => rfl
        | cons b bs => simp at he
      | cons a as =>
        cases as2 with
        | nil => simp at he
        | cons b bs =>
          simp only [List.map_cons, List.cons.injEq] at he
          have hdisc : a.disc = b.disc := by
            have := he.1
            simp only [eraseArm, Arm.mk.injEq] at this
            exact this.2.1
          have hfs : a.afields.map eraseField = b.afields.map eraseField := by
            have := he.1
            simp only [eraseArm, Arm.mk.injEq] at this
            exact this.2.2.1
          simp only [shapeF, hdisc]
          rw [ihf path a.afields b.afields hfs, iha path as bs he.2]

theorem armsWeight_erase_eq (as1 as2 : List Arm)
    (he : as1.map eraseArm = as2.map eraseArm) :
    armsWeight as1 = armsWeight as2 := by
  induction as1 generalizing as2 with
  | nil =>
    cases as2 with
    | nil => rfl
    | cons b bs => simp at he
  | cons a as ih =>
    cases as2 with
    | nil => simp at he
    | cons b bs =>
      simp only [List.map_cons, List.cons.injEq] at he
      have hlen : a.afields.length = b.afields.length := by
        have := he.1
        simp only [eraseArm, Arm.mk.injEq] at this
        have h2 := congrArg List.length this.2.2.1
        simpa using h2
      have h1 : armsWeight (a :: as) = a.afields.length + 2 + armsWeight as := by
        simp [armsWeight]
      have h2 : armsWeight (b :: bs) = b.afields.length + 2 + armsWeight bs := by
        simp [armsWeight]
      rw [h1, h2, hlen, ih bs he.2]

theorem armsWeight_set_disc (pre post : List Arm) (a : Arm) (d2 : Nat) :
    armsWeight (pre ++ { a with disc := d2 } :: post)
      = armsWeight (pre ++ a :: post) := by
  simp [armsWeight]

/-- C5: the Compatibility Hash of a metadata entry changes when a field's
type shape changes, when a variant arm's discriminant changes, or when a
variant arm is added or removed; it does not change when only names or
documentation strings change. -/
theorem c5_hash_sensitivity (r : Registry) :
    (∀ (pre post : List Arm) (a : Arm) (d2 : Nat), a.disc ≠ d2 →
        eventHash r (pre ++ a :: post)
          ≠ eventHash r (pre ++ { a with disc := d2 } :: post)) ∧
    (∀ arms1 arms2 : List Arm, arms1.length ≠ arms2.length →
        eventHash r arms1 ≠ eventHash r arms2) ∧
    (∀ (c1 c2 : CallDesc) (pre post : List (Option String × Nat))
        (nm1 nm2 : Option String) (t1 t2 : Nat),
        c1.args = pre ++ (nm1, t1) :: post →
        c2.args = pre ++ (nm2, t2) :: post →
        typeHash r t1 ≠ typeHash r t2 →
        callHash r c1 ≠ callHash r c2) ∧
    (∀ as1 as2 : List Arm, as1.map eraseArm = as2.map eraseArm →
        eventHash r as1 = eventHash r as2) ∧
    (∀ c1 c2 : CallDesc, c1.cindex = c2.cindex →
        c1.args.map (fun a => a.2) = c2.args.map (fun a => a.2) →
        callHash r c1 = callHash r c2) := by
  refine ⟨?_, ?_, ?_, ?_, ?_⟩
  · intro pre post a d2 hne heq
    unfold eventHash at heq
    rw [show armsWeight (pre ++ { a with disc := d2 } :: post)
        = armsWeight (pre ++ a :: post) from by simp [armsWeight]] at heq
    have hlen : pre.length + 1
        ≤ entryFuel r (armsWeight (pre ++ a :: post)) := by
      have h1 : pre.length + 1 ≤ (pre ++ a :: post).length := by
        simp
      have h2 := length_le_armsWeight (pre ++ a :: post)
      unfold entryFuel
      omega
    exact shapeF_arms_disc_ne r pre _ [] a { a with disc := d2 } post hne hlen heq
  · intro arms1 arms2 hne heq
    have h1 : spineLen (eventHash r arms1) = arms1.length := by
      unfold eventHash
      refine spineLen_shapeF_arms r arms1 _ [] ?_
      have := length_le_armsWeight arms1
      unfold entryFuel
      omega
    have h2 : spineLen (eventHash r arms2) = arms2.length := by
      unfold eventHash
      refine spineLen_shapeF_arms r arms2 _ [] ?_
      have := length_le_armsWeight arms2
      unfold entryFuel
      omega
    rw [heq] at h1
    rw [h1] at h2
    exact hne h2
  · intro c1 c2 pre post nm1 nm2 t1 t2 h1 h2 hne heq
    have hlen : c1.args.length = c2.args.length := by
      rw [h1, h2]
      simp
    unfold callHash at heq
    rw [hlen] at heq
    have hspine := (Prod.mk.injEq _ _ _ _).mp heq
    have hs := hspine.2
    have hm1 : c1.args.map (fun a => a.2)
        = pre.map (fun a => a.2) ++ t1 :: post.map (fun a => a.2) := by
      rw [h1]
      simp
    have hm2 : c2.args.map (fun a => a.2)
        = pre.map (fun a => a.2) ++ t2 :: post.map (fun a => a.2) := by
      rw [h2]
      simp
    rw [hm1, hm2] at hs
    have hpre : (pre.map (fun a => a.2)).length + 1
        ≤ entryFuel r c2.args.length := by
      rw [h2]
      unfold entryFuel
      simp
      omega
    have hone := shapeF_many_split r (pre.map (fun a => a.2)) _ [] t1 t2
      (post.map (fun a => a.2)) hpre hs
    have hfuel : stabFuel r
        ≤ entryFuel r c2.args.length - ((pre.map (fun a => a.2)).length + 1) := by
      rw [h2]
      unfold entryFuel
      simp
      omega
    have hb := bound_le_stabFuel r
    have he1 := (shapeF_stabilizes r
      (entryFuel r c2.args.length - ((pre.map (fun a => a.2)).length + 1))
      (stabFuel r)).1 [] t1 (by omega) hb
    have he2 := (shapeF_stabilizes r
      (entryFuel r c2.args.length - ((pre.map (fun a => a.2)).length + 1))
      (stabFuel r)).1 [] t2 (by omega) hb
    unfold typeHash at hne
    rw [he1, he2] at hone
    exact hne hone
  · intro as1 as2 he
    unfold eventHash
    rw [armsWeight_erase_eq as1 as2 he]
    exact (shapeF_erase_invariant r _).2 [] as1 as2 he
  · intro c1 c2 hidx hargs
    unfold callHash
    have hlen : c1.args.length = c2.args.length := by
      have := congrArg List.length hargs
      simpa using this
    rw [hidx, hlen, hargs]

/-- Witness for C5 on concrete entries over `exampleReg`: a discriminant
change, an added arm, and a field type change each change the hash; a pure
rename/redocumentation does not. -/
theorem c5_hash_sensitivity_witness :
    (eventHash exampleReg [⟨"A", 0, [], []⟩]
      ≠ eventHash exampleReg [⟨"A", 1, [], []⟩]) ∧
    (eventHash exampleReg [⟨"A", 0, [], []⟩]
      ≠ eventHash exampleReg [⟨"A", 0, [], []⟩, ⟨"B", 1, [], []⟩]) ∧
    (callHash exampleReg ⟨"c", 0, [(some "x", 1)]⟩
      ≠ callHash exampleReg ⟨"c", 0, [(some "x", 2)]⟩) ∧
    (eventHash exampleReg [⟨"Named", 3, [⟨some "f", 1, ["doc"]⟩], ["docs"]⟩]
      = eventHash exampleReg [⟨"Renamed", 3, [⟨none, 1, []⟩], []⟩]) ∧
    (callHash exampleReg ⟨"a", 7, [(some "x", 1)]⟩
      = callHash exampleReg ⟨"b", 7, [(none, 1)]⟩) :=
  ⟨by
      have h := (c5_hash_sensitivity exampleReg).1 [] [] ⟨"A", 0, [], []⟩ 1
        (by decide)
      simpa using h,
    (c5_hash_sensitivity exampleReg).2.1 [⟨"A", 0, [], []⟩]
      [⟨"A", 0, [], []⟩, ⟨"B", 1, [], []⟩] (by decide),
    (c5_hash_sensitivity exampleReg).2.2.1 ⟨"c", 0, [(some "x", 1)]⟩
      ⟨"c", 0, [(some "x", 2)]⟩ [] [] (some "x") (some "x") 1 2 rfl rfl
      (by decide),
    (c5_hash_sensitivity exampleReg).2.2.2.1
      [⟨"Named", 3, [⟨some "f", 1, ["doc"]⟩], ["docs"]⟩]
      [⟨"Renamed", 3, [⟨none, 1, []⟩], []⟩] (by decide),
    (c5_hash_sensitivity exampleReg).2.2.2.2 ⟨"a", 7, [(some "x", 1)]⟩
      ⟨"b", 7, [(none, 1)]⟩ rfl rfl⟩

/-! ## Operation Resolver: validation gate and call building -/

/-- Modelled from the spec (§4.3 validation contract):
`validate(expected_hash, actual_entry) -> Ok | IncompatibleMetadata`. -/
def validate (expected : Nat × Shape) (r : Registry) (c : CallDesc) :
    Except Err Unit :=
  if expected = callHash r c then .ok () else .error .incompatibleMetadata

/-- Modelled from the spec (§4.4): locate a Pallet by name, then a Call by
name within it; any miss is `EntryNotFound`. -/
def locateCall (meta : List Pallet) (pn cn : String) :
    Except Err (Pallet × CallDesc) :=
  match meta.find? (fun p => p.pname == pn) with
  | none => .error .entryNotFound
  | some p =>
    match p.calls.find? (fun c => c.cname == cn) with
    | none => .error .entryNotFound
    | some c => .ok (p, c)

/-- Modelled from the spec (§4.4 call/transaction build): locate, validate
when an expected hash is supplied, then encode pallet index byte, call
index byte, and each argument against its declared type id in order. -/
def buildCall (f : Nat) (r : Registry) (meta : List Pallet) (pn cn : String)
    (vals : List Value) (expected : Option (Nat × Shape)) :
    Except Err (List Nat) :=
  match locateCall meta pn cn with
  | .error e => .error e
  | .ok (p, c) =>
    match expected with
    | some h =>
      if h = callHash r c then
        match encodeJob f r (.tupleElems (c.args.map (fun a => a.2)) vals) with
        | .error e => .error e
        | .ok body => .ok (p.pindex :: c.cindex :: body)
      else .error .incompatibleMetadata
    | none =>
      match encodeJob f r (.tupleElems (c.args.map (fun a => a.2)) vals) with
      | .error e => .error e
      | .ok body => .ok (p.pindex :: c.cindex :: body)

/-- C3: `validate` returns `Ok` exactly when the expected hash equals the
entry's computed Compatibility Hash and `IncompatibleMetadata` exactly
when they differ; and a call build with validation enabled fails with
`IncompatibleMetadata` on a hash mismatch for every argument list and
every depth budget — the Codec Engine is never consulted. -/
theorem c3_validation_gate (r : Registry) (c : CallDesc)
    (expected : Nat × Shape) :
    (validate expected r c = .ok () ↔ expected = callHash r c) ∧
    (validate expected r c = .error .incompatibleMetadata
      ↔ expected ≠ callHash r c) ∧
    (∀ f meta pn cn vals p2 c2, locateCall meta pn cn = .ok (p2, c2) →
        expected ≠ callHash r c2 →
        buildCall f r meta pn cn vals (some expected)
          = .error .incompatibleMetadata) := by
  refine ⟨?_, ?_, ?_⟩
  · unfold validate
    split
    · rename_i h
      exact ⟨fun _ => h, fun _ => rfl⟩
    · rename_i h
      exact ⟨fun he => Except.noConfusion he, fun he => absurd he h⟩
  · unfold validate
    split
    · rename_i h
      exact ⟨fun he => Except.noConfusion he, fun he => absurd h he⟩
    · rename_i h
      exact ⟨fun _ => h, fun _ => rfl⟩
  · intro f meta pn cn vals p2 c2 hloc hne
    unfold buildCall
    rw [hloc]
    dsimp only []
    rw [if_neg hne]

/-- Example pallet list for the resolver witnesses. -/
def examplePallets : List Pallet :=
  [⟨"Balances", 1, [⟨"transfer", 2, [(some "amount", 4)]⟩], []⟩]

/-- Witness for C3: the correct hash validates `Ok`, a wrong hash yields
`IncompatibleMetadata`, and a validated build with a wrong hash fails with
`IncompatibleMetadata` before any encoding (even with an argument list the
encoder would reject). -/
theorem c3_validation_gate_witness :
    (validate (callHash exampleReg ⟨"transfer", 2, [(some "amount", 4)]⟩)
        exampleReg ⟨"transfer", 2, [(some "amount", 4)]⟩ = .ok ()) ∧
    (validate (99, .nilS) exampleReg ⟨"transfer", 2, [(some "amount", 4)]⟩
      = .error .incompatibleMetadata) ∧
    buildCall 10 exampleReg examplePallets "Balances" "transfer" []
        (some (99, .nilS)) = .error .incompatibleMetadata :=
  ⟨(c3_validation_gate exampleReg ⟨"transfer", 2, [(some "amount", 4)]⟩
      (callHash exampleReg ⟨"transfer", 2, [(some "amount", 4)]⟩)).1.mpr rfl,
    (c3_validation_gate exampleReg ⟨"transfer", 2, [(some "amount", 4)]⟩
      (99, .nilS)).2.1.mpr (by decide),
    (c3_validation_gate exampleReg ⟨"transfer", 2, [(some "amount", 4)]⟩
      (99, .nilS)).2.2 10 examplePallets "Balances" "transfer" []
      ⟨"Balances", 1, [⟨"transfer", 2, [(some "amount", 4)]⟩], []⟩
      ⟨"transfer", 2, [(some "amount", 4)]⟩ rfl (by decide)⟩

/-- C8: a built call payload is exactly the pallet index byte, then the
call index byte, then the arguments encoded against their declared type
ids in declared order. -/
theorem c8_call_payload (f : Nat) (r : Registry) (meta : List Pallet)
    (pn cn : String) (vals : List Value) (p : Pallet) (c : CallDesc)
    (body : List Nat)
    (hloc : locateCall meta pn cn = .ok (p, c))
    (henc : encodeJob f r (.tupleElems (c.args.map (fun a => a.2)) vals)
      = .ok body) :
    buildCall f r meta pn cn vals none = .ok (p.pindex :: c.cindex :: body) := by
  unfold buildCall
  rw [hloc]
  dsimp only []
  rw [henc]

/-- Witness for C8: call index 2 of pallet index 1 with the single compact
argument 1000 yields the payload `[0x01, 0x02, 0xA1, 0x0F]`. -/
theorem c8_call_payload_witness :
    locateCall examplePallets "Balances" "transfer"
      = .ok (⟨"Balances", 1, [⟨"transfer", 2, [(some "amount", 4)]⟩], []⟩,
          ⟨"transfer", 2, [(some "amount", 4)]⟩) ∧
    encodeJob 10 exampleReg (.tupleElems [4] [.uint 1000]) = .ok [0xA1, 0x0F] ∧
    buildCall 10 exampleReg examplePallets "Balances" "transfer" [.uint 1000]
      none = .ok [0x01, 0x02, 0xA1, 0x0F] :=
  ⟨rfl, rfl, by
    have h := c8_call_payload 10 exampleReg examplePallets "Balances" "transfer"
      [.uint 1000]
      ⟨"Balances", 1, [⟨"transfer", 2, [(some "amount", 4)]⟩], []⟩
      ⟨"transfer", 2, [(some "amount", 4)]⟩ [0xA1, 0x0F] rfl rfl
    simpa using h⟩

/-! ## Build-time feature gate (from `src/subxt/src/lib.rs`) -/

/-- Embedded from `src/subxt/src/lib.rs` (lines 146–147): the build-time
feature configuration, restricted to the two transport features the gate
mentions. -/
structure FeatureCfg where
  jsonrpseeWs : Bool
  jsonrpseeWeb : Bool
deriving DecidableEq, Repr

/-- Embedded from `src/subxt/src/lib.rs` (lines 146–147): the
`compile_error!` guarded by `cfg(all(feature = "jsonrpsee-ws",
feature = "jsonrpsee-web"))` fires exactly when both features are on. -/
def compileErrorFires (cfg : FeatureCfg) : Bool :=
  cfg.jsonrpseeWs && cfg.jsonrpseeWeb

/-- A build is accepted exactly when no `compile_error!` fires. -/
def buildAccepted (cfg : FeatureCfg) : Bool :=
  !(compileErrorFires cfg)

/-- C10: enabling both `jsonrpsee-ws` and `jsonrpsee-web` is statically
rejected — the `compile_error!` fires exactly on that configuration, so no
accepted build has both transport features enabled. -/
theorem c10_mutually_exclusive_features (cfg : FeatureCfg) :
    (compileErrorFires cfg = true
      ↔ cfg.jsonrpseeWs = true ∧ cfg.jsonrpseeWeb = true) ∧
    (cfg.jsonrpseeWs = true → cfg.jsonrpseeWeb = true →
      buildAccepted cfg = false) := by
  constructor
  · simp [compileErrorFires]
  · intro h1 h2
    simp [buildAccepted, compileErrorFires, h1, h2]

/-- Witness for C10 at the configuration with both features enabled. -/
theorem c10_mutually_exclusive_features_witness :
    (compileErrorFires ⟨true, true⟩ = true
      ↔ (⟨true, true⟩ : FeatureCfg).jsonrpseeWs = true
          ∧ (⟨true, true⟩ : FeatureCfg).jsonrpseeWeb = true) ∧
    buildAccepted ⟨true, true⟩ = false :=
  ⟨(c10_mutually_exclusive_features ⟨true, true⟩).1,
    (c10_mutually_exclusive_features ⟨true, true⟩).2 rfl rfl⟩

/-- Witness for C2 at the documented boundary values
`0, 63, 64, 16383, 16384, 2^30 - 1, 2^30`. -/
theorem c2_compact_mode_ladder_witness :
    (compactMode 0 = 0 ∧ (compactEncode 0).length = 1) ∧
    (compactMode 63 = 0 ∧ (compactEncode 63).length = 1) ∧
    (compactMode 64 = 1 ∧ (compactEncode 64).length = 2) ∧
    (compactMode 16383 = 1 ∧ (compactEncode 16383).length = 2) ∧
    (compactMode 16384 = 2 ∧ (compactEncode 16384).length = 4) ∧
    (compactMode (2 ^ 30 - 1) = 2 ∧ (compactEncode (2 ^ 30 - 1)).length = 4) ∧
    (compactMode (2 ^ 30) = 3 ∧ (compactEncode (2 ^ 30)).length = 5) :=
  ⟨(c2_compact_mode_ladder 0).2.1 (by decide),
   (c2_compact_mode_ladder 63).2.1 (by decide),
   (c2_compact_mode_ladder 64).2.2.1 (by decide) (by decide),
   (c2_compact_mode_ladder 16383).2.2.1 (by decide) (by decide),
   (c2_compact_mode_ladder 16384).2.2.2.1 (by decide) (by decide),
   (c2_compact_mode_ladder (2 ^ 30 - 1)).2.2.2.1 (by decide) (by decide),
   ((c2_compact_mode_ladder (2 ^ 30)).2.2.2.2 (by decide)).1,
   ((c2_compact_mode_ladder (2 ^ 30)).2.2.2.2 (by decide)).2.trans (by decide)⟩

end Subxt
